import Mathlib

/-!
# Verification of the bit-torrust BitTorrent client

A shallow embedding of the program's core data model and operations:
the Bencode codec (crates/bencode/src/lib.rs), the metainfo model and its
canonical re-encoding (src/torrent.rs), the tracker peer-list parsing
(src/tracker.rs), and the peer wire protocol (src/peer.rs).

Bytes are modelled as natural numbers (the program's `u8` values are always
below 256; where a claim needs that fact it appears as a hypothesis).
Rust functions that can panic are modelled with an explicit `panic` outcome,
and the recursive decoder carries fuel (the recursion consumes input, so a
fuel of twice the input length plus one is always sufficient; the
`fuelOut` outcome is proved unreachable at that fuel).
-/

/-! ## Byte-string helpers -/

/-- ASCII bytes of a string literal. -/
def asciiBytes (s : String) : List Nat := s.toList.map Char.toNat

/-- `(b as char).is_ascii_digit()` on a byte. -/
def isDigitByte (b : Nat) : Bool := 48 ≤ b && b ≤ 57

/-- Decimal digits of `n`, most significant first, as ASCII bytes
(the output of Rust's `format!("{}", n)` for unsigned `n`).
Fuel-based so that it reduces definitionally; `n + 1` fuel always suffices. -/
def natToDecAux : Nat → Nat → List Nat
  | 0, _ => []
  | fuel + 1, n => if n < 10 then [48 + n] else natToDecAux fuel (n / 10) ++ [48 + n % 10]

def natToDecBytes (n : Nat) : List Nat := natToDecAux (n + 1) n

/-- ASCII bytes of Rust's `format!("{}", i)` for a signed integer. -/
def intToDecBytes (i : Int) : List Nat :=
  if i < 0 then 45 :: natToDecBytes (-i).toNat else natToDecBytes i.toNat

/-- Digit-string parsing: `some` of the value iff the list is nonempty and
all ASCII digits (no sign, no other characters). -/
def parseDigitsAux : List Nat → Nat → Option Nat
  | [], acc => some acc
  | b :: t, acc => if isDigitByte b then parseDigitsAux t (acc * 10 + (b - 48)) else none

def parseDigits : List Nat → Option Nat
  | [] => none
  | l => parseDigitsAux l 0

/-- Rust `str::parse::<usize>` on the bytes of a (UTF-8) string: an optional
leading `+`, then decimal digits, value below `2^64` (64-bit `usize`). -/
def parseUsize (s : List Nat) : Option Nat :=
  (parseDigits (if s.head? = some 43 then s.tail else s)).bind
    (fun n => if n < 2 ^ 64 then some n else none)

/-- Rust `str::parse::<i64>`: optional sign, decimal digits, `i64` range. -/
def parseI64 (s : List Nat) : Option Int :=
  if s.head? = some 45 then
    (parseDigits s.tail).bind (fun n => if n ≤ 2 ^ 63 then some (-(n : Int)) else none)
  else if s.head? = some 43 then
    (parseDigits s.tail).bind (fun n => if n < 2 ^ 63 then some (n : Int) else none)
  else
    (parseDigits s).bind (fun n => if n < 2 ^ 63 then some (n : Int) else none)

/-- `slice.iter().position(|x| x == c)`. -/
def posOf (c : Nat) : List Nat → Option Nat
  | [] => none
  | b :: t => if b = c then some 0 else (posOf c t).map (· + 1)

/-- A UTF-8 continuation byte. -/
def utf8ContByte (b : Nat) : Bool := 128 ≤ b && b ≤ 191

/-- Allowed second byte of a 3-byte UTF-8 sequence headed by `b`. -/
def utf8Byte3ok (b c : Nat) : Bool :=
  if b = 224 then 160 ≤ c && c ≤ 191
  else if b = 237 then 128 ≤ c && c ≤ 159
  else utf8ContByte c

/-- Allowed second byte of a 4-byte UTF-8 sequence headed by `b`. -/
def utf8Byte4ok (b c : Nat) : Bool :=
  if b = 240 then 144 ≤ c && c ≤ 191
  else if b = 244 then 128 ≤ c && c ≤ 143
  else utf8ContByte c

mutual

/-- UTF-8 validity of a byte sequence (the check done by `str::from_utf8`). -/
def utf8Valid : List Nat → Bool
  | [] => true
  | b :: rest =>
    if b ≤ 127 then utf8Valid rest
    else if 194 ≤ b && b ≤ 223 then utf8Tail2 rest
    else if 224 ≤ b && b ≤ 239 then utf8Tail3 b rest
    else if 240 ≤ b && b ≤ 244 then utf8Tail4 b rest
    else false

def utf8Tail2 : List Nat → Bool
  | c :: r => utf8ContByte c && utf8Valid r
  | [] => false

def utf8Tail3 (b : Nat) : List Nat → Bool
  | c :: d :: r => utf8Byte3ok b c && utf8ContByte d && utf8Valid r
  | _ => false

def utf8Tail4 (b : Nat) : List Nat → Bool
  | c :: d :: e :: r => utf8Byte4ok b c && utf8ContByte d && utf8ContByte e && utf8Valid r
  | _ => false

end

/-- Rust `slice::chunks(w)`: consecutive chunks of size `w`, last possibly
shorter. Fuel-based (`l.length + 1` suffices for `0 < w`). -/
def chunksOfAux : Nat → Nat → List Nat → List (List Nat)
  | 0, _, _ => []
  | _, _, [] => []
  | fuel + 1, w, l => l.take w :: chunksOfAux fuel w (l.drop w)

def chunksOf (w : Nat) (l : List Nat) : List (List Nat) := chunksOfAux (l.length + 1) w l

/-! ## The Bencode value tree

`Bencode` mirrors the Rust enum; `Bencode::String(String)` carries the UTF-8
bytes of the Rust string, and `Bencode::Dict(IndexMap<..>)` is an
insertion-ordered association list. -/

mutual

inductive Bencode : Type where
  | string : List Nat → Bencode
  | number : Int → Bencode
  | list : List Bencode → Bencode
  | dict : List (List Nat × BencodeDictValues) → Bencode

inductive BencodeDictValues : Type where
  | bencode : Bencode → BencodeDictValues
  | bytes : List (List Nat) → BencodeDictValues

end

/-- `IndexMap::insert`: replace in place when the key exists, else append. -/
def insertKV : List (List Nat × BencodeDictValues) → List Nat → BencodeDictValues →
    List (List Nat × BencodeDictValues)
  | [], k, v => [(k, v)]
  | (k', v') :: t, k, v => if k' = k then (k', v) :: t else (k', v') :: insertKV t k v

/-- `IndexMap::get`. -/
def dictGet (k : List Nat) : List (List Nat × BencodeDictValues) → Option BencodeDictValues
  | [] => none
  | (k', v) :: t => if k' = k then some v else dictGet k t

/-! ## Bencode encoding (`Bencode::to_bytes`)

The Rust function returns `BenResult` but has no error path, so it is a
plain function here. A `Bytes` dictionary value is emitted as the summed
byte count, a colon, and the concatenated chunks. -/

mutual

def Bencode.to_bytes : Bencode → List Nat
  | .string s => natToDecBytes s.length ++ 58 :: s
  | .number i => 105 :: (intToDecBytes i ++ [101])
  | .list l => 108 :: (toBytesList l ++ [101])
  | .dict d => 100 :: (toBytesDict d ++ [101])

def toBytesList : List Bencode → List Nat
  | [] => []
  | v :: t => v.to_bytes ++ toBytesList t

def toBytesDict : List (List Nat × BencodeDictValues) → List Nat
  | [] => []
  | (k, .bencode v) :: t => (natToDecBytes k.length ++ 58 :: k) ++ v.to_bytes ++ toBytesDict t
  | (k, .bytes bz) :: t =>
      (natToDecBytes k.length ++ 58 :: k) ++
        (natToDecBytes (bz.map List.length).sum ++ 58 :: bz.flatten) ++ toBytesDict t

end

/-! ## Bencode decoding (`Bencode::from_bytes`) -/

/-- The decode errors: the four `BenError` variants plus the two foreign
error kinds propagated with `?` (`Utf8Error` from `str::from_utf8` and
`ParseIntError` from `str::parse::<usize>`). -/
inductive BenError : Type where
  | misplacedClosing : BenError
  | unexpectedTruncation : BenError
  | unexpectedToken : Nat → BenError
  | missingToken : Nat → BenError
  | utf8Error : BenError
  | parseLengthError : BenError
deriving DecidableEq, Repr

/-- The ways the Rust decoder can panic: indexing `encoded_value[0]` on an
empty slice, slicing past the end of the input (string/byte bodies and the
`&rem[1..]` after an unterminated list/dict), `parse::<i64>().unwrap()`,
and `length % chunk_size` with a zero chunk size. -/
inductive PanicKind : Type where
  | indexOutOfBounds : PanicKind
  | sliceOutOfBounds : PanicKind
  | intParseUnwrap : PanicKind
  | remByZero : PanicKind
deriving DecidableEq, Repr

/-- Outcome of a decoding step: success, a returned error, a panic, or fuel
exhaustion (an artifact of the embedding, unreachable at the fuel used by
`Bencode.from_bytes`). -/
inductive DR (α : Type) : Type where
  | ok : α → DR α
  | err : BenError → DR α
  | panic : PanicKind → DR α
  | fuelOut : DR α

/-- The `byte_mode_key` predicate, `fn(&str) -> Option<usize>`, on the
string's UTF-8 bytes. -/
abbrev Pred := List Nat → Option Nat

/-- `Bencode::bendecode_s`, returning the string bytes and the rest.
(The Rust function wraps the bytes in `Bencode::String`; callers that need
the raw string — the dictionary key parser — pattern match it back out.) -/
def bendecode_s (input : List Nat) : DR (List Nat × List Nat) :=
  match posOf 58 input with
  | none => .err (.missingToken 58)
  | some ci =>
    let lenBytes := input.take ci
    if utf8Valid lenBytes then
      match parseUsize lenBytes with
      | none => .err .parseLengthError
      | some len =>
        if ci + 1 + len ≤ input.length then
          let body := (input.drop (ci + 1)).take len
          if utf8Valid body then .ok (body, input.drop (ci + 1 + len))
          else .err .utf8Error
        else .panic .sliceOutOfBounds
    else .err .utf8Error

/-- `Bencode::bendecode_i` (called on the input after the `i`). -/
def bendecode_i (input : List Nat) : DR (Bencode × List Nat) :=
  match posOf 101 input with
  | none => .err (.missingToken 101)
  | some ei =>
    let iBytes := input.take ei
    if utf8Valid iBytes then
      match parseI64 iBytes with
      | none => .panic .intParseUnwrap
      | some n => .ok (.number n, input.drop (ei + 1))
    else .err .utf8Error

/-- `Bencode::bendecode_bytez`: a raw byte string split into chunks of
`chunkSize`, failing with `UnexpectedTruncationError` when the declared
length is not a multiple of the chunk size. -/
def bendecode_bytez (input : List Nat) (chunkSize : Nat) : DR (List (List Nat) × List Nat) :=
  match posOf 58 input with
  | none => .err (.missingToken 58)
  | some ci =>
    let lenBytes := input.take ci
    if utf8Valid lenBytes then
      match parseUsize lenBytes with
      | none => .err .parseLengthError
      | some len =>
        if chunkSize = 0 then .panic .remByZero
        else if len % chunkSize ≠ 0 then .err .unexpectedTruncation
        else if ci + 1 + len ≤ input.length then
          .ok (chunksOf chunkSize ((input.drop (ci + 1)).take len), input.drop (ci + 1 + len))
        else .panic .sliceOutOfBounds
    else .err .utf8Error

mutual

/-- `Bencode::from_bytes`, fueled. Dispatch on the first byte; the list and
dictionary cases run the decoding loops below. -/
def fromBytesF (P : Pred) : Nat → List Nat → DR (Bencode × List Nat)
  | 0, _ => .fuelOut
  | _ + 1, [] => .panic .indexOutOfBounds
  | f + 1, b :: rest =>
    if isDigitByte b then
      match bendecode_s (b :: rest) with
      | .ok (s, r) => .ok (.string s, r)
      | .err e => .err e
      | .panic k => .panic k
      | .fuelOut => .fuelOut
    else if b = 105 then bendecode_i rest
    else if b = 108 then bendecodeLLoop P f rest []
    else if b = 100 then bendecodeDLoop P f rest []
    else if b = 101 then .err .misplacedClosing
    else .err (.unexpectedToken b)

/-- The `while` loop of `Bencode::bendecode_l`: decode values until a
closing `e`; an exhausted input panics on the final `&rem[1..]`. -/
def bendecodeLLoop (P : Pred) : Nat → List Nat → List Bencode → DR (Bencode × List Nat)
  | 0, _, _ => .fuelOut
  | _ + 1, [], _ => .panic .sliceOutOfBounds
  | f + 1, b :: rest, acc =>
    if b = 101 then .ok (.list acc, rest)
    else
      match fromBytesF P f (b :: rest) with
      | .ok (v, ret) => bendecodeLLoop P f ret (acc ++ [v])
      | .err e => .err e
      | .panic k => .panic k
      | .fuelOut => .fuelOut

/-- The `while` loop of `Bencode::bendecode_d`: decode a string key, consult
the byte-mode predicate for the value, and insert in order. -/
def bendecodeDLoop (P : Pred) :
    Nat → List Nat → List (List Nat × BencodeDictValues) → DR (Bencode × List Nat)
  | 0, _, _ => .fuelOut
  | _ + 1, [], _ => .panic .sliceOutOfBounds
  | f + 1, b :: rest, acc =>
    if b = 101 then .ok (.dict acc, rest)
    else
      match bendecode_s (b :: rest) with
      | .ok (s, ret) =>
        match P s with
        | none =>
          match fromBytesF P f ret with
          | .ok (v, ret2) => bendecodeDLoop P f ret2 (insertKV acc s (.bencode v))
          | .err e => .err e
          | .panic k => .panic k
          | .fuelOut => .fuelOut
        | some w =>
          match bendecode_bytez ret w with
          | .ok (bz, ret2) => bendecodeDLoop P f ret2 (insertKV acc s (.bytes bz))
          | .err e => .err e
          | .panic k => .panic k
          | .fuelOut => .fuelOut
      | .err e => .err e
      | .panic k => .panic k
      | .fuelOut => .fuelOut

end

/-- `Bencode::from_bytes`. The decoder consumes at least one byte per unit
of fuel spent on every other step, so `2 * length + 1` fuel never runs out
(proved below). -/
def Bencode.from_bytes (input : List Nat) (P : Pred) : DR (Bencode × List Nat) :=
  fromBytesF P (2 * input.length + 1) input

/-! ## Well-formed values

`wfB P V` captures the §3 grammar as realized by the Rust types, relative
to the byte-mode predicate `P`: strings (and dictionary keys) are valid
UTF-8 with a `usize` length, numbers are `i64`, dictionary keys are
distinct, and a dictionary value is `Bytes` exactly at the keys `P` marks,
with every chunk of the width `P` prescribes. Every value built by the
Rust program from decoding satisfies `wfB` (proved below). -/

mutual

def wfB (P : Pred) : Bencode → Bool
  | .string s => utf8Valid s && decide (s.length < 2 ^ 64)
  | .number i => decide (-(2 ^ 63) ≤ i) && decide (i < 2 ^ 63)
  | .list l => wfL P l
  | .dict d => decide ((d.map Prod.fst).Nodup) && wfD P d

def wfL (P : Pred) : List Bencode → Bool
  | [] => true
  | v :: t => wfB P v && wfL P t

def wfD (P : Pred) : List (List Nat × BencodeDictValues) → Bool
  | [] => true
  | (k, dv) :: t =>
    (utf8Valid k && decide (k.length < 2 ^ 64) && wfEntry P k dv) && wfD P t

def wfEntry (P : Pred) (k : List Nat) (dv : BencodeDictValues) : Bool :=
  match dv with
  | .bencode v => (P k).isNone && wfB P v
  | .bytes bz =>
    match P k with
    | some w =>
        decide (0 < w) && bz.all (fun c => decide (c.length = w)) &&
          decide ((bz.map List.length).sum < 2 ^ 64)
    | none => false

end

/-! ## Metainfo model (src/torrent.rs) -/

structure File where
  length : Nat
  path : List (List Nat)
deriving DecidableEq, Repr

inductive FileType : Type where
  | multiFile (files : List File)
  | singleFile (length : Nat)
deriving DecidableEq, Repr

structure Info where
  file_type : FileType
  name : List Nat
  piece_length : Nat
  pieces : List (List Nat)
deriving DecidableEq, Repr

def Info.get_file_length (i : Info) : Nat :=
  match i.file_type with
  | .multiFile files => (files.map File.length).sum
  | .singleFile length => length

/-- `FileType::to_bytes`. In the multi-file case the Rust code emits, for
each file, the two key-value fragments back to back with no surrounding
dictionary, and repeats the `4:path` key for every path segment. -/
def FileType.to_bytes : FileType → List Nat
  | .multiFile files =>
      108 :: (files.flatMap (fun f =>
        asciiBytes "6:length" ++ 105 :: natToDecBytes f.length ++ [101] ++
          (f.path.flatMap (fun s =>
            asciiBytes "4:path" ++ natToDecBytes s.length ++ 58 :: s)))) ++ [101]
  | .singleFile length => asciiBytes "6:length" ++ 105 :: natToDecBytes length ++ [101]

/-- `Info::to_bytes`: the canonical re-encoding of the info dictionary used
for the info-hash. -/
def Info.to_bytes (info : Info) : List Nat :=
  100 :: (info.file_type.to_bytes ++
    asciiBytes "4:name" ++ (natToDecBytes info.name.length ++ 58 :: info.name) ++
    asciiBytes "12:piece length" ++ (105 :: natToDecBytes info.piece_length ++ [101]) ++
    asciiBytes "6:pieces" ++ natToDecBytes (info.pieces.length * 20) ++
      58 :: info.pieces.flatten) ++ [101]

/-- `Info::get_hash` applies the external SHA-1 primitive to the canonical
encoding; the primitive itself is out of scope and passed as a function. -/
def Info.get_hash (sha1 : List Nat → List Nat) (info : Info) : List Nat :=
  sha1 info.to_bytes

inductive TorrentError : Type where
  | invalidAnnounceUrl : TorrentError
  | invalidTorrentFile : String → TorrentError
deriving DecidableEq, Repr

/-- The `pieces` loop of `Info::parse_info`: each chunk must have length
exactly 20, else `InvalidTorrentFile("Invalid file hash.")`; the
`<[u8; 20]>::try_from(&chunk[..20]).unwrap()` (modelled as `take 20`) then
cannot fail. -/
def Info.parse_pieces : List (List Nat) → Except TorrentError (List (List Nat))
  | [] => .ok []
  | c :: t =>
    if c.length ≠ 20 then .error (.invalidTorrentFile "Invalid file hash.")
    else
      match Info.parse_pieces t with
      | .ok r => .ok (c.take 20 :: r)
      | .error e => .error e

/-- The byte-mode predicate used when parsing a metainfo file. -/
def metainfoPred : Pred := fun k => if k = asciiBytes "pieces" then some 20 else none

/-- The byte-mode predicate used when parsing a tracker response. -/
def trackerPred : Pred := fun k => if k = asciiBytes "peers" then some 6 else none

/-- The claim's reading of the canonical info-dict: a well-formed Bencode
dictionary in the literal key order `length`/`files`, `name`,
`piece length`, `pieces`, with the files block a Bencode list of
per-file dictionaries `length`, `path` (path a list of strings). -/
def specInfoDict (info : Info) : Bencode :=
  .dict ((match info.file_type with
    | .singleFile length => [(asciiBytes "length", .bencode (.number (length : Int)))]
    | .multiFile files => [(asciiBytes "files", .bencode (.list (files.map (fun f =>
        .dict [(asciiBytes "length", .bencode (.number (f.length : Int))),
               (asciiBytes "path", .bencode (.list (f.path.map Bencode.string)))]))))]) ++
    [(asciiBytes "name", .bencode (.string info.name)),
     (asciiBytes "piece length", .bencode (.number (info.piece_length : Int))),
     (asciiBytes "pieces", .bytes info.pieces)])

def specInfoBytes (info : Info) : List Nat := (specInfoDict info).to_bytes

/-! ## Peer model (src/peer.rs) -/

def PEER_ID : List Nat := asciiBytes "1337cafebabedeadbeef"

def PIECE_BLOCK_LEN : Nat := 2 <<< 13

inductive PeerError : Type where
  | unknownBytesListFormat : PeerError
  | invalidInfoHash : PeerError
  | peerHandshakeFailed : PeerError
  | downloadPieceFailed : PeerError
  | peerMessageTooShort : Nat → PeerError
  | peerMessageTooLong : Nat → PeerError
  | tcpStreamConnectionFailure : PeerError
  | tcpStreamGarbageReceived : PeerError
deriving DecidableEq, Repr

structure Peer where
  ip_addr : Nat × Nat × Nat × Nat
  port : Nat
deriving DecidableEq, Repr

/-- `impl TryFrom<&[u8]> for Peer`. -/
def Peer.try_from (value : List Nat) : Except PeerError Peer :=
  if value.length ≠ 6 then .error .unknownBytesListFormat
  else .ok { ip_addr := (value.getD 0 0, value.getD 1 0, value.getD 2 0, value.getD 3 0),
             port := Nat.lor (Nat.shiftLeft (value.getD 4 0) 8) (value.getD 5 0) }

/-- The `.unwrap()` mapping of compact peers in `TrackerService::get_peers`:
`none` models the panic on a failed conversion. -/
def unwrap_peers : List (List Nat) → Option (List Peer)
  | [] => some []
  | c :: t =>
    match Peer.try_from c with
    | .ok p => (unwrap_peers t).map (fun r => p :: r)
    | .error _ => none

/-- `buf[i..i + src.len()].clone_from_slice(src)` (well-defined when the
range lies inside `l`, which holds at every use below). -/
def setRange (l : List Nat) (i : Nat) (src : List Nat) : List Nat :=
  l.take i ++ src ++ l.drop (i + src.length)

/-- The 68-byte handshake frame written by `PeerConnection::handshake`. -/
def handshake_msg (info_hash : List Nat) : List Nat :=
  setRange (setRange (setRange ((List.replicate 68 0).set 0 19) 1
    (asciiBytes "BitTorrent protocol")) 28 info_hash) 48 PEER_ID

/-- The remote peer id extracted from the 68-byte reply (`response_buf[48..]`). -/
def handshake_peer_id (response : List Nat) : List Nat := response.drop 48

inductive PeerMessage : Type where
  | Choke : PeerMessage
  | Unchoke : PeerMessage
  | Interested : PeerMessage
  | NotInterested : PeerMessage
  | Have : Nat → PeerMessage
  | Bitfield : List Nat → PeerMessage
  | Request : Nat → Nat → Nat → PeerMessage
  | Piece : Nat → Nat → List Nat → PeerMessage
  | Cancel : Nat → Nat → Nat → PeerMessage
deriving DecidableEq, Repr

/-- Big-endian bytes of a `u32` (`to_be_bytes`); the `as u32` truncation is
inherent in the byte extraction. -/
def u32be (n : Nat) : List Nat :=
  [n / 2 ^ 24 % 256, n / 2 ^ 16 % 256, n / 2 ^ 8 % 256, n % 256]

/-- `PeerConnection::message_payload`, byte for byte as the source writes it
(including the `Piece` arm that emits no tag byte and the `Cancel` arm that
emits tag 6). -/
def message_payload : PeerMessage → List Nat
  | .Choke => [0, 0, 0, 1, 0]
  | .Unchoke => [0, 0, 0, 1, 1]
  | .Interested => [0, 0, 0, 1, 2]
  | .NotInterested => [0, 0, 0, 1, 3]
  | .Have index => [0, 0, 0, 5, 4] ++ u32be index
  | .Bitfield bitfield => u32be (1 + bitfield.length) ++ 5 :: bitfield
  | .Request index begin length =>
      u32be 13 ++ 6 :: (u32be index ++ u32be begin ++ u32be length)
  | .Piece index begin block => u32be (9 + block.length) ++ u32be index ++ u32be begin ++ block
  | .Cancel index begin length =>
      u32be 13 ++ 6 :: (u32be index ++ u32be begin ++ u32be length)

/-! ## Piece download (`PeerConnection::download_piece`) -/

structure BlockData where
  index : Nat
  begin : Nat
  block : List Nat
deriving DecidableEq, Repr

instance : Inhabited BlockData := ⟨⟨0, 0, []⟩⟩

/-- The derived `Ord` on `BlockData`: lexicographic on `(index, begin)`
(the block bytes are not compared). -/
def blockLT (a b : BlockData) : Bool :=
  decide (a.index < b.index) || (decide (a.index = b.index) && decide (a.begin < b.begin))

def heapSwap (v : List BlockData) (i j : Nat) : List BlockData :=
  (v.set i (v.getD j default)).set j (v.getD i default)

/-- Sift-up of Rust's `BinaryHeap::push` on the underlying vector. The heap
stores `Reverse(BlockData)`, so the new element moves up while it is
strictly *less* than its parent in `BlockData` order. `pos + 1` fuel
suffices since the position strictly decreases. -/
def siftUp : Nat → List BlockData → Nat → List BlockData
  | 0, v, _ => v
  | _ + 1, v, 0 => v
  | fuel + 1, v, pos =>
    let parent := (pos - 1) / 2
    if blockLT (v.getD pos default) (v.getD parent default) then
      siftUp fuel (heapSwap v pos parent) parent
    else v

/-- `BinaryHeap::push`: append at the end, then sift up. -/
def heapPush (v : List BlockData) (x : BlockData) : List BlockData :=
  siftUp (v.length + 1) (v ++ [x]) v.length

/-- `heap.into_iter()` yields the underlying vector in its (heap-array)
order, not in sorted order. -/
def heapIntoIter (v : List BlockData) : List BlockData := v

inductive DownloadOutcome : Type where
  | ok : List Nat → DownloadOutcome
  | err : PeerError → DownloadOutcome
  | blocked : DownloadOutcome
  | panicked : DownloadOutcome
deriving DecidableEq, Repr

/-- The assembly `try_fold` over `blocks.into_iter().enumerate()`: block `i`
must start at `i * PIECE_BLOCK_LEN`, else `DownloadPieceFailed`; on success
the block bytes are appended. -/
def assemble_piece : List BlockData → Nat → List Nat → DownloadOutcome
  | [], _, acc => .ok acc
  | bd :: t, i, acc =>
    if bd.begin ≠ i * PIECE_BLOCK_LEN then .err .downloadPieceFailed
    else assemble_piece t (i + 1) (acc ++ bd.block)

/-- `block_number` as computed by `download_piece`:
`piece_len / PIECE_BLOCK_LEN + usize::from(file_size % PIECE_BLOCK_LEN == 0)`. -/
def block_number (info : Info) : Nat :=
  info.piece_length / PIECE_BLOCK_LEN +
    (if info.get_file_length % PIECE_BLOCK_LEN = 0 then 1 else 0)

/-- The `Request` messages emitted in the `Unchoke` branch of
`download_piece`, in order, with the source's length formula. -/
def block_requests (info : Info) (piece_index : Nat) : List PeerMessage :=
  (List.range (block_number info)).map (fun i =>
    .Request piece_index (i * PIECE_BLOCK_LEN)
      (if ¬ (piece_index = info.pieces.length - 1) ∧
          info.get_file_length % PIECE_BLOCK_LEN ≠ 0 ∧ i = block_number info - 1 then
        PIECE_BLOCK_LEN
       else info.get_file_length % PIECE_BLOCK_LEN))

/-- The message loop of `download_piece` over a script of received
messages (`receive_decode` results). `Bitfield` stores the bitfield,
`Unchoke` sends the requests (captured by `block_requests`) and sets the
flag, `Piece` marks `begin / PIECE_BLOCK_LEN` in the received bit-vector
(panicking when out of range, as `BitVec::set` does) and pushes onto the
heap, breaking to assembly when all bits are set; other messages are
ignored. An exhausted script means the code would block on the socket. -/
def download_loop (info : Info) (piece_index : Nat) :
    List PeerMessage → Bool → List Bool → List BlockData → Option (List Nat) →
      DownloadOutcome
  | [], _, _, _, _ => .blocked
  | m :: ms, requested, received, heap, bitfield =>
    match m with
    | .Bitfield bf => download_loop info piece_index ms requested received heap (some bf)
    | .Unchoke => download_loop info piece_index ms true received heap bitfield
    | .Piece _index begin block =>
      if begin / PIECE_BLOCK_LEN < received.length then
        let received2 := received.set (begin / PIECE_BLOCK_LEN) true
        let heap2 := heapPush heap ⟨_index, begin, block⟩
        if received2.all (fun x => x) then assemble_piece (heapIntoIter heap2) 0 []
        else download_loop info piece_index ms requested received2 heap2 bitfield
      else .panicked
    | _ => download_loop info piece_index ms requested received heap bitfield

def download_piece (info : Info) (piece_index : Nat) (msgs : List PeerMessage) :
    DownloadOutcome :=
  download_loop info piece_index msgs false (List.replicate (block_number info) false) [] none

/-- The outcomes the Rust decoder can actually produce: a value with a
strictly shorter remainder, an error, or one of its three reachable panics. -/
def decOutcome (n : Nat) (r : DR (Bencode × List Nat)) : Prop :=
  (∃ v rem, r = .ok (v, rem) ∧ rem.length < n) ∨ (∃ e, r = .err e) ∨
    r = .panic .indexOutOfBounds ∨ r = .panic .sliceOutOfBounds ∨
    r = .panic .intParseUnwrap


/-! ## Spec-side functions and concrete inputs used by the claim theorems -/

/-- The intended block partitioning stated by the claim (and spec section 4.4):
ceil(piece_length / 16384) blocks, block `i` beginning at `i * 16384`, every
block of length 16384 except the last block of the last piece, which is
`file_length mod 16384` when that is nonzero. -/
def specBlockRequests (info : Info) (piece_index : Nat) : List PeerMessage :=
  (List.range ((info.piece_length + PIECE_BLOCK_LEN - 1) / PIECE_BLOCK_LEN)).map (fun i =>
    .Request piece_index (i * PIECE_BLOCK_LEN)
      (if piece_index = info.pieces.length - 1 ∧
          i = (info.piece_length + PIECE_BLOCK_LEN - 1) / PIECE_BLOCK_LEN - 1 ∧
          info.get_file_length % PIECE_BLOCK_LEN ≠ 0 then
        info.get_file_length % PIECE_BLOCK_LEN
       else PIECE_BLOCK_LEN))

/-- A single-file torrent of 32769 bytes in two pieces of 32768:
two 16384-byte blocks per full piece. -/
def infoTwoPiece : Info :=
  { file_type := .singleFile 32769, name := [102], piece_length := 32768,
    pieces := [List.replicate 20 0, List.replicate 20 0] }

/-- A single-file torrent of 49153 bytes with 49152-byte pieces:
three blocks in piece 0. -/
def infoThreeBlock : Info :=
  { file_type := .singleFile 49153, name := [102], piece_length := 49152,
    pieces := [List.replicate 20 0, List.replicate 20 0] }

/-- A message script delivering the three blocks of piece 0 out of order
(second, third, first). -/
def permutedBlocks : List PeerMessage :=
  [.Unchoke, .Piece 0 16384 [11], .Piece 0 32768 [12], .Piece 0 0 [10]]

/-- The same three blocks in ascending order. -/
def orderedBlocks : List PeerMessage :=
  [.Unchoke, .Piece 0 0 [10], .Piece 0 16384 [11], .Piece 0 32768 [12]]

/-- A multi-file info dictionary with one file (length 1, path ["a"]). -/
def infoMulti : Info :=
  { file_type := .multiFile [⟨1, [[97]]⟩], name := [110], piece_length := 1,
    pieces := [List.replicate 20 0] }

/-- A sample well-formed Bencode value exercising byte mode, nesting,
numbers and strings. -/
def sampleValue : Bencode :=
  .dict [(asciiBytes "pieces", .bytes [List.replicate 20 1, List.replicate 20 2]),
         (asciiBytes "a", .bencode (.list [.number (-7), .string (asciiBytes "hi")]))]

/-! ## Decimal formatting and parsing lemmas -/

theorem natToDecAux_digits {fuel n : Nat} (h : n < fuel) :
    ∀ b ∈ natToDecAux fuel n, 48 ≤ b ∧ b ≤ 57 := by
  induction fuel generalizing n with
  | zero => omega
  | succ f ih =>
    intro b hb
    rw [natToDecAux] at hb
    split at hb
    · simp only [List.mem_singleton] at hb
      omega
    · rename_i hn
      rcases List.mem_append.mp hb with h1 | h2
      · have hd : n / 10 < f := by
          have := Nat.div_lt_self (show 0 < n by omega) (show 1 < 10 by omega)
          omega
        exact ih hd b h1
      · simp only [List.mem_singleton] at h2
        omega

theorem natToDecBytes_digits {n : Nat} : ∀ b ∈ natToDecBytes n, 48 ≤ b ∧ b ≤ 57 :=
  natToDecAux_digits (Nat.lt_succ_self n)

theorem natToDecAux_ne_nil {fuel n : Nat} (h : n < fuel) : natToDecAux fuel n ≠ [] := by
  cases fuel with
  | zero => omega
  | succ f =>
    rw [natToDecAux]
    split
    · simp
    · simp

theorem natToDecBytes_head_digit (n : Nat) :
    ∃ b t, natToDecBytes n = b :: t ∧ 48 ≤ b ∧ b ≤ 57 := by
  cases heq : natToDecBytes n with
  | nil => exact absurd heq (natToDecAux_ne_nil (Nat.lt_succ_self n))
  | cons b t =>
    refine ⟨b, t, rfl, ?_⟩
    have := natToDecBytes_digits (n := n) b (by rw [heq]; simp)
    exact this

theorem parseDigitsAux_append (l1 l2 : List Nat) (acc : Nat) :
    parseDigitsAux (l1 ++ l2) acc =
      (parseDigitsAux l1 acc).bind (fun m => parseDigitsAux l2 m) := by
  induction l1 generalizing acc with
  | nil => simp [parseDigitsAux]
  | cons b t ih =>
    simp only [List.cons_append, parseDigitsAux]
    split
    · exact ih _
    · simp

theorem parseDigitsAux_digit {d : Nat} (h1 : 48 ≤ d) (h2 : d ≤ 57) (acc : Nat) :
    parseDigitsAux [d] acc = some (acc * 10 + (d - 48)) := by
  have hd : isDigitByte d = true := by simp [isDigitByte]; omega
  simp [parseDigitsAux, hd]

theorem parseDigitsAux_natToDecAux {fuel n : Nat} (h : n < fuel) (acc : Nat) :
    parseDigitsAux (natToDecAux fuel n) acc =
      some (acc * 10 ^ (natToDecAux fuel n).length + n) := by
  induction fuel generalizing n acc with
  | zero => omega
  | succ f ih =>
    rw [natToDecAux]
    split
    · rename_i hn
      rw [parseDigitsAux_digit (by omega) (by omega)]
      have he : 48 + n - 48 = n := by omega
      rw [he]
      simp
    · rename_i hn
      have hd : n / 10 < f := by
        have := Nat.div_lt_self (show 0 < n by omega) (show 1 < 10 by omega)
        omega
      rw [parseDigitsAux_append, ih hd]
      simp only [Option.some_bind]
      rw [parseDigitsAux_digit (by omega) (by omega)]
      have he : 48 + n % 10 - 48 = n % 10 := by omega
      rw [he]
      congr 1
      have hlen : (natToDecAux f (n / 10) ++ [48 + n % 10]).length =
          (natToDecAux f (n / 10)).length + 1 := by simp
      rw [hlen, Nat.pow_succ]
      have := Nat.div_add_mod n 10
      generalize (10 : Nat) ^ (natToDecAux f (n / 10)).length = K
      ring_nf
      omega

theorem parseDigits_natToDecBytes (n : Nat) : parseDigits (natToDecBytes n) = some n := by
  obtain ⟨b, t, heq, hb1, hb2⟩ := natToDecBytes_head_digit n
  have h := parseDigitsAux_natToDecAux (Nat.lt_succ_self n) 0
  rw [natToDecBytes] at heq
  rw [natToDecBytes, heq]
  rw [heq] at h
  have hpd : parseDigits (b :: t) = parseDigitsAux (b :: t) 0 := rfl
  rw [hpd, h]
  simp

theorem parseUsize_natToDecBytes {n : Nat} (h : n < 2 ^ 64) :
    parseUsize (natToDecBytes n) = some n := by
  obtain ⟨b, t, heq, hb1, hb2⟩ := natToDecBytes_head_digit n
  rw [parseUsize, heq]
  rw [if_neg (by simp; omega)]
  rw [← heq, parseDigits_natToDecBytes]
  simp only [Option.some_bind]
  rw [if_pos h]

theorem intToDecBytes_bytes {i : Int} : ∀ b ∈ intToDecBytes i, 45 ≤ b ∧ b ≤ 57 := by
  intro b hb
  rw [intToDecBytes] at hb
  split at hb
  · rcases List.mem_cons.mp hb with h1 | h2
    · omega
    · have := natToDecBytes_digits b h2
      omega
  · have := natToDecBytes_digits b hb
    omega

theorem parseI64_intToDecBytes {i : Int} (h1 : -(2 ^ 63) ≤ i) (h2 : i < 2 ^ 63) :
    parseI64 (intToDecBytes i) = some i := by
  by_cases hi : i < 0
  · rw [intToDecBytes, if_pos hi, parseI64]
    rw [if_pos (by simp)]
    simp only [List.tail_cons]
    rw [parseDigits_natToDecBytes]
    simp only [Option.some_bind]
    rw [if_pos (by omega)]
    congr 1
    omega
  · rw [intToDecBytes, if_neg hi, parseI64]
    obtain ⟨b, t, heq, hb1, hb2⟩ := natToDecBytes_head_digit i.toNat
    rw [heq]
    rw [if_neg (by simp; omega), if_neg (by simp; omega)]
    rw [← heq, parseDigits_natToDecBytes]
    simp only [Option.some_bind]
    rw [if_pos (by omega)]
    congr 1
    omega

/-! ## `posOf` and UTF-8 lemmas -/

theorem posOf_append_cons {c : Nat} {l1 : List Nat} (l2 : List Nat) (h : c ∉ l1) :
    posOf c (l1 ++ c :: l2) = some l1.length := by
  induction l1 with
  | nil => simp [posOf]
  | cons b t ih =>
    have hb : ¬ b = c := fun hb => h (by simp [hb])
    have hm : c ∉ t := fun hm => h (by simp [hm])
    simp [posOf, hb, ih hm]

theorem posOf_eq_none_of_not_mem {c : Nat} {l : List Nat} (h : c ∉ l) : posOf c l = none := by
  induction l with
  | nil => rfl
  | cons b t ih =>
    have hb : ¬ b = c := fun hb => h (by simp [hb])
    have hm : c ∉ t := fun hm => h (by simp [hm])
    simp [posOf, hb, ih hm]

theorem utf8Valid_ascii : ∀ {l : List Nat}, (∀ b ∈ l, b ≤ 127) → utf8Valid l = true := by
  intro l
  induction l with
  | nil => intro _; rfl
  | cons b t ih =>
    intro h
    rw [utf8Valid, if_pos (h b (by simp))]
    exact ih (fun x hx => h x (by simp [hx]))

theorem utf8Valid_natToDecBytes (n : Nat) : utf8Valid (natToDecBytes n) = true :=
  utf8Valid_ascii (fun b hb => by have := natToDecBytes_digits b hb; omega)

/-! ## Chunking lemmas -/

theorem chunksOfAux_nil (fuel w : Nat) : chunksOfAux fuel w [] = [] := by
  cases fuel <;> rfl

theorem chunksOfAux_flatten {w : Nat} (hw : 0 < w) :
    ∀ (bz : List (List Nat)) (fuel : Nat), (∀ c ∈ bz, c.length = w) →
      bz.flatten.length < fuel → chunksOfAux fuel w bz.flatten = bz := by
  intro bz
  induction bz with
  | nil => intro fuel _ _; exact chunksOfAux_nil fuel w
  | cons c t ih =>
    intro fuel hc hf
    have hcw : c.length = w := hc c (by simp)
    cases fuel with
    | zero => omega
    | succ f =>
      cases c with
      | nil => simp at hcw; omega
      | cons x xs =>
        rw [List.flatten_cons, List.cons_append, chunksOfAux]
        have hcast : x :: (xs ++ t.flatten) = (x :: xs) ++ t.flatten := rfl
        rw [hcast, List.take_left' hcw, List.drop_left' hcw]
        rw [ih f (fun d hd => hc d (by simp [hd]))]
        · rw [List.flatten_cons, List.length_append] at hf
          omega
        · simp

theorem chunksOf_flatten {w : Nat} (hw : 0 < w) (bz : List (List Nat))
    (hc : ∀ c ∈ bz, c.length = w) : chunksOf w bz.flatten = bz :=
  chunksOfAux_flatten hw bz _ hc (Nat.lt_succ_self _)

theorem chunksOfAux_length {w : Nat} (hw : 0 < w) :
    ∀ (fuel : Nat) (l : List Nat), l.length < fuel → l.length % w = 0 →
      ∀ c ∈ chunksOfAux fuel w l, c.length = w := by
  intro fuel
  induction fuel with
  | zero => intro l hl; omega
  | succ f ih =>
    intro l hl hm c hc
    cases l with
    | nil => simp [chunksOfAux_nil] at hc
    | cons x xs =>
      rw [chunksOfAux] at hc
      case x_3 => simp
      have hge : w ≤ (x :: xs).length := by
        have hdvd : w ∣ (x :: xs).length := Nat.dvd_of_mod_eq_zero hm
        exact Nat.le_of_dvd (by simp) hdvd
      rcases List.mem_cons.mp hc with h1 | h2
      · subst h1
        rw [List.length_take]
        omega
      · have hdvd : w ∣ (x :: xs).length := Nat.dvd_of_mod_eq_zero hm
        have hdvd2 : w ∣ ((x :: xs).length - w) := Nat.dvd_sub' hdvd dvd_rfl
        refine ih ((x :: xs).drop w) ?_ ?_ c h2
        · rw [List.length_drop]
          omega
        · rw [List.length_drop]
          omega

theorem chunksOfAux_sum {w : Nat} (hw : 0 < w) :
    ∀ (fuel : Nat) (l : List Nat), l.length < fuel →
      ((chunksOfAux fuel w l).map List.length).sum = l.length := by
  intro fuel
  induction fuel with
  | zero => intro l hl; omega
  | succ f ih =>
    intro l hl
    cases l with
    | nil => simp [chunksOfAux_nil]
    | cons x xs =>
      rw [chunksOfAux]
      · simp only [List.map_cons, List.sum_cons, List.length_take]
        have hlt : ((x :: xs).drop w).length < f := by
          simp only [List.length_drop, List.length_cons]
          simp only [List.length_cons] at hl
          omega
        rw [ih ((x :: xs).drop w) hlt]
        rw [List.length_drop]
        simp only [List.length_cons] at hl ⊢
        omega
      · simp

/-! ## Decoding an encoded token -/

theorem bendecode_s_encode (s rest : List Nat) (hu : utf8Valid s = true)
    (hl : s.length < 2 ^ 64) :
    bendecode_s (natToDecBytes s.length ++ 58 :: (s ++ rest)) = .ok (s, rest) := by
  have hno : (58 : Nat) ∉ natToDecBytes s.length := by
    intro hm
    have := natToDecBytes_digits _ hm
    omega
  have h2 : (natToDecBytes s.length ++ 58 :: (s ++ rest)).drop
      ((natToDecBytes s.length).length + 1) = s ++ rest := by
    rw [List.append_cons, List.drop_left' (by simp)]
  have h3 : (natToDecBytes s.length ++ 58 :: (s ++ rest)).drop
      ((natToDecBytes s.length).length + 1 + s.length) = rest := by
    rw [List.append_cons, ← List.append_assoc, List.drop_left' (by simp; omega)]
  have hlen : (natToDecBytes s.length).length + 1 + s.length ≤
      (natToDecBytes s.length ++ 58 :: (s ++ rest)).length := by
    simp
    omega
  simp only [bendecode_s, posOf_append_cons _ hno, List.take_left,
    utf8Valid_natToDecBytes, parseUsize_natToDecBytes hl, if_pos hlen, h2, h3,
    List.take_left, hu, if_true]

theorem bendecode_i_encode (i : Int) (rest : List Nat) (h1 : -(2 ^ 63) ≤ i)
    (h2 : i < 2 ^ 63) :
    bendecode_i (intToDecBytes i ++ 101 :: rest) = .ok (.number i, rest) := by
  have hno : (101 : Nat) ∉ intToDecBytes i := by
    intro hm
    have := intToDecBytes_bytes _ hm
    omega
  have hascii : utf8Valid (intToDecBytes i) = true :=
    utf8Valid_ascii (fun b hb => by have := intToDecBytes_bytes b hb; omega)
  have hdrop : (intToDecBytes i ++ 101 :: rest).drop ((intToDecBytes i).length + 1) = rest := by
    rw [List.append_cons, List.drop_left' (by simp)]
  simp only [bendecode_i, posOf_append_cons _ hno, List.take_left, hascii, if_true,
    parseI64_intToDecBytes h1 h2, hdrop]

theorem bendecode_bytez_encode (bz : List (List Nat)) (w : Nat) (rest : List Nat)
    (hw : 0 < w) (hc : ∀ c ∈ bz, c.length = w) (hs : (bz.map List.length).sum < 2 ^ 64) :
    bendecode_bytez
      (natToDecBytes (bz.map List.length).sum ++ 58 :: (bz.flatten ++ rest)) w =
      .ok (bz, rest) := by
  have hfl : bz.flatten.length = (bz.map List.length).sum := List.length_flatten bz
  have hno : (58 : Nat) ∉ natToDecBytes (bz.map List.length).sum := by
    intro hm
    have := natToDecBytes_digits _ hm
    omega
  have hmod : (bz.map List.length).sum % w = 0 := by
    have : ∀ (l : List (List Nat)), (∀ c ∈ l, c.length = w) →
        (l.map List.length).sum = l.length * w := by
      intro l
      induction l with
      | nil => simp
      | cons c t ih =>
        intro hl
        simp only [List.map_cons, List.sum_cons, List.length_cons, ih
          (fun d hd => hl d (by simp [hd])), hl c (by simp)]
        ring
    rw [this bz hc]
    simp [Nat.mul_mod_left]
  have h2 : (natToDecBytes (bz.map List.length).sum ++ 58 :: (bz.flatten ++ rest)).drop
      ((natToDecBytes (bz.map List.length).sum).length + 1) = bz.flatten ++ rest := by
    rw [List.append_cons, List.drop_left' (by simp)]
  have h3 : (natToDecBytes (bz.map List.length).sum ++ 58 :: (bz.flatten ++ rest)).drop
      ((natToDecBytes (bz.map List.length).sum).length + 1 + (bz.map List.length).sum) =
      rest := by
    rw [List.append_cons, ← List.append_assoc, List.drop_left' (by simp [hfl]; omega)]
  have hlen : (natToDecBytes (bz.map List.length).sum).length + 1 +
      (bz.map List.length).sum ≤
      (natToDecBytes (bz.map List.length).sum ++ 58 :: (bz.flatten ++ rest)).length := by
    simp [hfl]
    omega
  have htake : (bz.flatten ++ rest).take (bz.map List.length).sum = bz.flatten :=
    List.take_left' hfl
  simp only [bendecode_bytez, posOf_append_cons _ hno, List.take_left,
    utf8Valid_natToDecBytes, parseUsize_natToDecBytes hs, if_pos hlen, h2, h3, htake,
    if_true]
  rw [if_neg (by omega), if_neg (by simp [hmod])]
  rw [chunksOf_flatten hw bz hc]

/-! ## Shape of encodings -/

theorem to_bytes_length (v : Bencode) : 2 ≤ (Bencode.to_bytes v).length := by
  cases v with
  | string s =>
    rw [Bencode.to_bytes]
    have hne := natToDecAux_ne_nil (Nat.lt_succ_self s.length)
    have : 0 < (natToDecBytes s.length).length := List.length_pos.mpr hne
    simp only [List.length_append, List.length_cons]
    omega
  | number i =>
    rw [Bencode.to_bytes]
    simp only [List.length_cons, List.length_append, List.length_singleton]
    omega
  | list l =>
    rw [Bencode.to_bytes]
    simp only [List.length_cons, List.length_append, List.length_singleton]
    omega
  | dict d =>
    rw [Bencode.to_bytes]
    simp only [List.length_cons, List.length_append, List.length_singleton]
    omega

theorem to_bytes_head (v : Bencode) :
    ∃ b t, Bencode.to_bytes v = b :: t ∧ b ≠ 101 := by
  cases v with
  | string s =>
    obtain ⟨b, t, heq, hb1, hb2⟩ := natToDecBytes_head_digit s.length
    refine ⟨b, t ++ 58 :: s, ?_, by omega⟩
    rw [Bencode.to_bytes, heq]
    simp
  | number i => exact ⟨105, _, by rw [Bencode.to_bytes], by omega⟩
  | list l => exact ⟨108, _, by rw [Bencode.to_bytes], by omega⟩
  | dict d => exact ⟨100, _, by rw [Bencode.to_bytes], by omega⟩

theorem insertKV_append {acc : List (List Nat × BencodeDictValues)} {k : List Nat}
    (v : BencodeDictValues) (h : k ∉ acc.map Prod.fst) :
    insertKV acc k v = acc ++ [(k, v)] := by
  induction acc with
  | nil => rfl
  | cons e t ih =>
    obtain ⟨k', v'⟩ := e
    rw [insertKV]
    rw [if_neg (by intro hk; exact h (by simp [hk]))]
    have hm : k ∉ List.map Prod.fst t := by
      intro hm
      apply h
      simp only [List.map_cons, List.mem_cons]
      right
      exact hm
    rw [ih hm]
    rfl

/-! ## Round trip: decoding an encoding -/

theorem decode_encode_fuel (P : Pred) :
    ∀ fuel : Nat,
      (∀ (V : Bencode) (rest : List Nat), wfB P V = true →
        2 * ((Bencode.to_bytes V).length + rest.length) + 1 ≤ fuel →
        fromBytesF P fuel (Bencode.to_bytes V ++ rest) = .ok (V, rest)) ∧
      (∀ (vs acc : List Bencode) (rest : List Nat), wfL P vs = true →
        2 * ((toBytesList vs).length + 1 + rest.length) + 2 ≤ fuel →
        bendecodeLLoop P fuel (toBytesList vs ++ 101 :: rest) acc =
          .ok (.list (acc ++ vs), rest)) ∧
      (∀ (es acc : List (List Nat × BencodeDictValues)) (rest : List Nat),
        wfD P es = true → (((acc ++ es).map Prod.fst)).Nodup →
        2 * ((toBytesDict es).length + 1 + rest.length) + 2 ≤ fuel →
        bendecodeDLoop P fuel (toBytesDict es ++ 101 :: rest) acc =
          .ok (.dict (acc ++ es), rest)) := by
  intro fuel
  induction fuel with
  | zero =>
    refine ⟨fun V rest _ h => by omega, fun vs acc rest _ h => by omega,
      fun es acc rest _ _ h => by omega⟩
  | succ f ih =>
    obtain ⟨ihA, ihB, ihD⟩ := ih
    refine ⟨?_, ?_, ?_⟩
    · intro V rest hwf hfuel
      cases V with
      | string s =>
        rw [wfB] at hwf
        simp only [Bool.and_eq_true, decide_eq_true_eq] at hwf
        obtain ⟨hu, hl⟩ := hwf
        obtain ⟨b, t, heq, hb1, hb2⟩ := natToDecBytes_head_digit s.length
        have hform : Bencode.to_bytes (.string s) ++ rest =
            b :: (t ++ 58 :: (s ++ rest)) := by
          rw [Bencode.to_bytes, heq]
          simp
        rw [hform, fromBytesF, if_pos (show isDigitByte b = true by
          simp only [isDigitByte, Bool.and_eq_true, decide_eq_true_eq]; omega)]
        have hback : b :: (t ++ 58 :: (s ++ rest)) =
            natToDecBytes s.length ++ 58 :: (s ++ rest) := by
          rw [heq]
          simp
        rw [hback, bendecode_s_encode s rest hu hl]
      | number i =>
        rw [wfB] at hwf
        simp only [Bool.and_eq_true, decide_eq_true_eq] at hwf
        obtain ⟨hlo, hhi⟩ := hwf
        have hform : Bencode.to_bytes (.number i) ++ rest =
            105 :: (intToDecBytes i ++ 101 :: rest) := by
          rw [Bencode.to_bytes]
          simp
        rw [hform, fromBytesF]
        rw [if_neg (by decide), if_pos rfl]
        exact bendecode_i_encode i rest hlo hhi
      | list l =>
        rw [wfB] at hwf
        have hform : Bencode.to_bytes (.list l) ++ rest =
            108 :: (toBytesList l ++ 101 :: rest) := by
          rw [Bencode.to_bytes]
          simp
        rw [hform, fromBytesF]
        rw [if_neg (by decide), if_neg (by decide), if_pos rfl]
        have hfl : 2 * ((toBytesList l).length + 1 + rest.length) + 2 ≤ f := by
          rw [Bencode.to_bytes] at hfuel
          simp only [List.length_cons, List.length_append, List.length_singleton] at hfuel
          omega
        have hres := ihB l [] rest hwf hfl
        simpa using hres
      | dict d =>
        rw [wfB] at hwf
        simp only [Bool.and_eq_true, decide_eq_true_eq] at hwf
        obtain ⟨hnd, hwd⟩ := hwf
        have hform : Bencode.to_bytes (.dict d) ++ rest =
            100 :: (toBytesDict d ++ 101 :: rest) := by
          rw [Bencode.to_bytes]
          simp
        rw [hform, fromBytesF]
        rw [if_neg (by decide), if_neg (by decide), if_neg (by decide), if_pos rfl]
        have hfl : 2 * ((toBytesDict d).length + 1 + rest.length) + 2 ≤ f := by
          rw [Bencode.to_bytes] at hfuel
          simp only [List.length_cons, List.length_append, List.length_singleton] at hfuel
          omega
        have hres := ihD d [] rest hwd (by simpa using hnd) hfl
        simpa using hres
    · intro vs acc rest hwf hfuel
      cases vs with
      | nil =>
        rw [toBytesList, List.nil_append, bendecodeLLoop, if_pos rfl]
        simp
      | cons v vs =>
        rw [wfL] at hwf
        simp only [Bool.and_eq_true] at hwf
        obtain ⟨hwv, hwvs⟩ := hwf
        obtain ⟨b, t, heq, hbne⟩ := to_bytes_head v
        have hlenv := to_bytes_length v
        have hform : toBytesList (v :: vs) ++ 101 :: rest =
            b :: (t ++ (toBytesList vs ++ 101 :: rest)) := by
          rw [toBytesList, heq]
          simp
        rw [hform, bendecodeLLoop, if_neg hbne]
        have hback : b :: (t ++ (toBytesList vs ++ 101 :: rest)) =
            Bencode.to_bytes v ++ (toBytesList vs ++ 101 :: rest) := by
          rw [heq]
          simp
        have hlens : (toBytesList (v :: vs)).length =
            (Bencode.to_bytes v).length + (toBytesList vs).length := by
          rw [toBytesList]
          simp
        rw [hlens] at hfuel
        rw [hback]
        rw [ihA v (toBytesList vs ++ 101 :: rest) hwv (by
          simp only [List.length_append, List.length_cons]
          omega)]
        simp only []
        rw [ihB vs (acc ++ [v]) rest hwvs (by omega)]
        simp
    · intro es acc rest hwf hnodup hfuel
      cases es with
      | nil =>
        rw [toBytesDict, List.nil_append, bendecodeDLoop, if_pos rfl]
        simp
      | cons e t =>
        obtain ⟨k, dv⟩ := e
        rw [wfD] at hwf
        simp only [Bool.and_eq_true, decide_eq_true_eq] at hwf
        obtain ⟨⟨⟨hku, hkl⟩, hentry⟩, hwt⟩ := hwf
        have hknotin : k ∉ acc.map Prod.fst := by
          simp only [List.map_append, List.map_cons] at hnodup
          rw [List.nodup_append] at hnodup
          intro hk
          exact hnodup.2.2 hk (by simp)
        have hk0 : 0 < (natToDecBytes k.length).length :=
          List.length_pos.mpr (natToDecAux_ne_nil (Nat.lt_succ_self k.length))
        obtain ⟨b, bt, heq, hb1, hb2⟩ := natToDecBytes_head_digit k.length
        cases dv with
        | bencode v =>
          rw [wfEntry] at hentry
          simp only [Bool.and_eq_true, Option.isNone_iff_eq_none] at hentry
          obtain ⟨hPk, hwv⟩ := hentry
          have hlenv := to_bytes_length v
          have hform : toBytesDict ((k, .bencode v) :: t) ++ 101 :: rest =
              b :: (bt ++ 58 ::
                (k ++ (Bencode.to_bytes v ++ (toBytesDict t ++ 101 :: rest)))) := by
            rw [toBytesDict, heq]
            simp
          rw [hform, bendecodeDLoop, if_neg (show ¬ b = 101 by omega)]
          have hback : b :: (bt ++ 58 ::
              (k ++ (Bencode.to_bytes v ++ (toBytesDict t ++ 101 :: rest)))) =
              natToDecBytes k.length ++ 58 ::
                (k ++ (Bencode.to_bytes v ++ (toBytesDict t ++ 101 :: rest))) := by
            rw [heq]
            simp
          rw [hback, bendecode_s_encode k _ hku hkl]
          simp only []
          rw [hPk]
          have hlens : (toBytesDict ((k, .bencode v) :: t)).length =
              (natToDecBytes k.length).length + 1 + k.length +
                (Bencode.to_bytes v).length + (toBytesDict t).length := by
            rw [toBytesDict]
            simp
            omega
          rw [hlens] at hfuel
          rw [ihA v (toBytesDict t ++ 101 :: rest) hwv (by
            simp only [List.length_append, List.length_cons]
            omega)]
          simp only []
          rw [insertKV_append _ hknotin]
          have hres := ihD t (acc ++ [(k, BencodeDictValues.bencode v)]) rest hwt
            (by simpa using hnodup) (by omega)
          rw [List.append_assoc] at hres
          simpa using hres
        | bytes bz =>
          rw [wfEntry] at hentry
          cases hPk : P k with
          | none =>
            rw [hPk] at hentry
            simp at hentry
          | some w =>
            rw [hPk] at hentry
            simp only [Bool.and_eq_true, decide_eq_true_eq, List.all_eq_true] at hentry
            obtain ⟨⟨hw, hcw⟩, hsum⟩ := hentry
            have hcw' : ∀ c ∈ bz, c.length = w := fun c hc => hcw c hc
            have hform : toBytesDict ((k, .bytes bz) :: t) ++ 101 :: rest =
                b :: (bt ++ 58 :: (k ++ (natToDecBytes (bz.map List.length).sum ++ 58 ::
                  (bz.flatten ++ (toBytesDict t ++ 101 :: rest))))) := by
              rw [toBytesDict, heq]
              simp
            rw [hform, bendecodeDLoop, if_neg (show ¬ b = 101 by omega)]
            have hback : b :: (bt ++ 58 :: (k ++ (natToDecBytes (bz.map List.length).sum ++
                58 :: (bz.flatten ++ (toBytesDict t ++ 101 :: rest))))) =
                natToDecBytes k.length ++ 58 ::
                  (k ++ (natToDecBytes (bz.map List.length).sum ++ 58 ::
                    (bz.flatten ++ (toBytesDict t ++ 101 :: rest)))) := by
              rw [heq]
              simp
            rw [hback, bendecode_s_encode k _ hku hkl]
            simp only []
            rw [hPk]
            simp only []
            rw [bendecode_bytez_encode bz w _ hw hcw' hsum]
            simp only []
            rw [insertKV_append _ hknotin]
            have hlens : (toBytesDict ((k, .bytes bz) :: t)).length =
                (natToDecBytes k.length).length + 1 + k.length +
                  ((natToDecBytes (bz.map List.length).sum).length + 1 +
                    bz.flatten.length) + (toBytesDict t).length := by
              rw [toBytesDict]
              simp
              omega
            rw [hlens] at hfuel
            have hres := ihD t (acc ++ [(k, BencodeDictValues.bytes bz)]) rest hwt
              (by simpa using hnodup) (by omega)
            rw [List.append_assoc] at hres
            simpa using hres

/-- Encode-then-decode round trip at the wrapper fuel. -/
theorem from_bytes_to_bytes (P : Pred) (V : Bencode) (h : wfB P V = true) :
    Bencode.from_bytes (Bencode.to_bytes V) P = .ok (V, []) := by
  rw [Bencode.from_bytes]
  have hres := (decode_encode_fuel P (2 * (Bencode.to_bytes V).length + 1)).1 V [] h
    (by simp)
  simpa using hres

/-! ## Inversion lemmas for the token decoders -/

theorem posOf_lt {c : Nat} : ∀ {l : List Nat} {i : Nat}, posOf c l = some i → i < l.length := by
  intro l
  induction l with
  | nil => intro i h; rw [posOf] at h; cases h
  | cons b t ih =>
    intro i h
    rw [posOf] at h
    split at h
    · cases h
      simp
    · cases hpos : posOf c t with
      | none => rw [hpos] at h; cases h
      | some j =>
        rw [hpos] at h
        simp only [Option.map_some'] at h
        cases h
        have := ih hpos
        simp
        omega

theorem parseUsize_lt {s : List Nat} {n : Nat} (h : parseUsize s = some n) : n < 2 ^ 64 := by
  rw [parseUsize] at h
  rcases Option.bind_eq_some.mp h with ⟨m, hm, hf⟩
  split at hf
  · cases hf
    assumption
  · cases hf

theorem parseI64_range {s : List Nat} {i : Int} (h : parseI64 s = some i) :
    -(2 ^ 63) ≤ i ∧ i < 2 ^ 63 := by
  rw [parseI64] at h
  split at h
  · rcases Option.bind_eq_some.mp h with ⟨m, hm, hf⟩
    split at hf
    · cases hf
      constructor <;> omega
    · cases hf
  · split at h
    · rcases Option.bind_eq_some.mp h with ⟨m, hm, hf⟩
      split at hf
      · cases hf
        constructor <;> omega
      · cases hf
    · rcases Option.bind_eq_some.mp h with ⟨m, hm, hf⟩
      split at hf
      · cases hf
        constructor <;> omega
      · cases hf

theorem bendecode_s_ok {input s rem : List Nat} (h : bendecode_s input = .ok (s, rem)) :
    utf8Valid s = true ∧ s.length < 2 ^ 64 ∧ rem.length < input.length := by
  simp only [bendecode_s] at h
  split at h
  · cases h
  · rename_i ci hpos
    split at h
    · rename_i hu
      split at h
      · cases h
      · rename_i len hlen
        split at h
        · rename_i hbound
          split at h
          · rename_i hbody
            simp only [DR.ok.injEq, Prod.mk.injEq] at h
            obtain ⟨hs, hrem⟩ := h
            subst hs
            subst hrem
            have hci := posOf_lt hpos
            refine ⟨hbody, ?_, ?_⟩
            · rw [List.length_take, List.length_drop]
              have := parseUsize_lt hlen
              omega
            · rw [List.length_drop]
              omega
          · cases h
        · cases h
    · cases h

theorem bendecode_s_cases (input : List Nat) :
    (∃ s rem, bendecode_s input = .ok (s, rem)) ∨ (∃ e, bendecode_s input = .err e) ∨
      bendecode_s input = .panic .sliceOutOfBounds := by
  simp only [bendecode_s]
  split
  · right; left; exact ⟨_, rfl⟩
  · split
    · split
      · right; left; exact ⟨_, rfl⟩
      · split
        · split
          · left; exact ⟨_, _, rfl⟩
          · right; left; exact ⟨_, rfl⟩
        · right; right; rfl
    · right; left; exact ⟨_, rfl⟩

theorem bendecode_i_ok {input : List Nat} {v : Bencode} {rem : List Nat}
    (h : bendecode_i input = .ok (v, rem)) :
    (∃ n, v = .number n ∧ -(2 ^ 63) ≤ n ∧ n < 2 ^ 63) ∧ rem.length < input.length := by
  simp only [bendecode_i] at h
  split at h
  · cases h
  · rename_i ei hpos
    split at h
    · split at h
      · cases h
      · rename_i n hn
        simp only [DR.ok.injEq, Prod.mk.injEq] at h
        obtain ⟨hv, hrem⟩ := h
        subst hv
        subst hrem
        have := parseI64_range hn
        have hei := posOf_lt hpos
        refine ⟨⟨n, rfl, this.1, this.2⟩, ?_⟩
        rw [List.length_drop]
        omega
    · cases h

theorem bendecode_i_cases (input : List Nat) :
    (∃ v rem, bendecode_i input = .ok (v, rem)) ∨ (∃ e, bendecode_i input = .err e) ∨
      bendecode_i input = .panic .intParseUnwrap := by
  simp only [bendecode_i]
  split
  · right; left; exact ⟨_, rfl⟩
  · split
    · split
      · right; right; rfl
      · left; exact ⟨_, _, rfl⟩
    · right; left; exact ⟨_, rfl⟩

theorem bendecode_bytez_ok {input : List Nat} {w : Nat} {bz : List (List Nat)}
    {rem : List Nat} (h : bendecode_bytez input w = .ok (bz, rem)) :
    0 < w ∧ (∀ c ∈ bz, c.length = w) ∧ (bz.map List.length).sum < 2 ^ 64 ∧
      rem.length < input.length := by
  simp only [bendecode_bytez] at h
  split at h
  · cases h
  · rename_i ci hpos
    split at h
    · split at h
      · cases h
      · rename_i len hlen
        split at h
        · cases h
        · rename_i hwz
          split at h
          · cases h
          · rename_i hmod
            split at h
            · rename_i hbound
              simp only [DR.ok.injEq, Prod.mk.injEq] at h
              obtain ⟨hbz, hrem⟩ := h
              subst hbz
              subst hrem
              have hw : 0 < w := by omega
              have hci := posOf_lt hpos
              have hlt := parseUsize_lt hlen
              have hblen : ((input.drop (ci + 1)).take len).length = len := by
                rw [List.length_take, List.length_drop]
                omega
              have hmod' : ((input.drop (ci + 1)).take len).length % w = 0 := by
                rw [hblen]
                omega
              refine ⟨hw, ?_, ?_, ?_⟩
              · intro c hc
                rw [chunksOf] at hc
                exact chunksOfAux_length hw _ _ (Nat.lt_succ_self _) hmod' c hc
              · rw [chunksOf, chunksOfAux_sum hw _ _ (Nat.lt_succ_self _), hblen]
                omega
              · rw [List.length_drop]
                omega
            · cases h
    · cases h

theorem bendecode_bytez_cases (input : List Nat) {w : Nat} (hw : 0 < w) :
    (∃ bz rem, bendecode_bytez input w = .ok (bz, rem)) ∨
      (∃ e, bendecode_bytez input w = .err e) ∨
      bendecode_bytez input w = .panic .sliceOutOfBounds := by
  simp only [bendecode_bytez]
  split
  · right; left; exact ⟨_, rfl⟩
  · split
    · split
      · right; left; exact ⟨_, rfl⟩
      · split
        · omega
        · split
          · right; left; exact ⟨_, rfl⟩
          · split
            · left; exact ⟨_, _, rfl⟩
            · right; right; rfl
    · right; left; exact ⟨_, rfl⟩

/-! ## Decoded values are well formed -/

theorem mem_keys_insertKV {acc : List (List Nat × BencodeDictValues)} {k x : List Nat}
    {v : BencodeDictValues} (h : x ∈ (insertKV acc k v).map Prod.fst) :
    x ∈ acc.map Prod.fst ∨ x = k := by
  induction acc with
  | nil =>
    simp [insertKV] at h
    right
    exact h
  | cons e t ih =>
    obtain ⟨k', v'⟩ := e
    rw [insertKV] at h
    split at h
    · left
      simpa using h
    · simp only [List.map_cons, List.mem_cons] at h
      rcases h with h | h
      · left
        simp [h]
      · rcases ih h with h2 | h2
        · left
          simp only [List.map_cons, List.mem_cons]
          right
          exact h2
        · right
          exact h2

theorem nodup_keys_insertKV {acc : List (List Nat × BencodeDictValues)} {k : List Nat}
    {v : BencodeDictValues} (h : (acc.map Prod.fst).Nodup) :
    ((insertKV acc k v).map Prod.fst).Nodup := by
  induction acc with
  | nil => simp [insertKV]
  | cons e t ih =>
    obtain ⟨k', v'⟩ := e
    rw [insertKV]
    split
    · simpa using h
    · rename_i hne
      simp only [List.map_cons, List.nodup_cons] at h ⊢
      refine ⟨?_, ih h.2⟩
      intro hmem
      rcases mem_keys_insertKV hmem with h2 | h2
      · exact h.1 h2
      · exact hne h2

theorem wfD_insertKV {P : Pred} {acc : List (List Nat × BencodeDictValues)} {k : List Nat}
    {dv : BencodeDictValues} (hacc : wfD P acc = true) (hk : utf8Valid k = true)
    (hkl : k.length < 2 ^ 64) (he : wfEntry P k dv = true) :
    wfD P (insertKV acc k dv) = true := by
  induction acc with
  | nil =>
    rw [insertKV, wfD, wfD]
    simp only [Bool.and_eq_true, decide_eq_true_eq]
    exact ⟨⟨⟨hk, hkl⟩, he⟩, trivial⟩
  | cons e t ih =>
    obtain ⟨k', v'⟩ := e
    rw [wfD] at hacc
    simp only [Bool.and_eq_true] at hacc
    obtain ⟨hhead, htail⟩ := hacc
    rw [insertKV]
    split
    · rename_i hkk
      subst hkk
      rw [wfD]
      simp only [Bool.and_eq_true]
      refine ⟨?_, htail⟩
      simp only [Bool.and_eq_true, decide_eq_true_eq]
      exact ⟨⟨hk, hkl⟩, he⟩
    · rw [wfD]
      simp only [Bool.and_eq_true]
      exact ⟨hhead, ih htail⟩

theorem wfL_iff {P : Pred} {l : List Bencode} :
    wfL P l = true ↔ ∀ x ∈ l, wfB P x = true := by
  induction l with
  | nil => simp [wfL]
  | cons v t ih =>
    rw [wfL]
    simp only [Bool.and_eq_true, ih, List.mem_cons]
    constructor
    · rintro ⟨hv, ht⟩ x (rfl | hx)
      · exact hv
      · exact ht x hx
    · intro h
      exact ⟨h v (Or.inl rfl), fun x hx => h x (Or.inr hx)⟩

theorem wfEntry_bencode {P : Pred} {s : List Nat} {v : Bencode} (hPs : P s = none)
    (hv : wfB P v = true) : wfEntry P s (.bencode v) = true := by
  rw [wfEntry, hPs]
  simp [hv]

theorem wfEntry_bytes {P : Pred} {s : List Nat} {w : Nat} {bz : List (List Nat)}
    (hPs : P s = some w) (hw : 0 < w) (hc : ∀ c ∈ bz, c.length = w)
    (hsum : (bz.map List.length).sum < 2 ^ 64) : wfEntry P s (.bytes bz) = true := by
  rw [wfEntry, hPs]
  simp only [Bool.and_eq_true, decide_eq_true_eq, List.all_eq_true]
  exact ⟨⟨hw, fun c hc2 => by simp [hc c hc2]⟩, hsum⟩

theorem decode_wf_fuel (P : Pred) :
    ∀ fuel : Nat,
      (∀ (input : List Nat) (v : Bencode) (rem : List Nat),
        fromBytesF P fuel input = .ok (v, rem) → wfB P v = true) ∧
      (∀ (input : List Nat) (acc : List Bencode) (v : Bencode) (rem : List Nat),
        (∀ x ∈ acc, wfB P x = true) →
        bendecodeLLoop P fuel input acc = .ok (v, rem) → wfB P v = true) ∧
      (∀ (input : List Nat) (acc : List (List Nat × BencodeDictValues)) (v : Bencode)
        (rem : List Nat), wfD P acc = true → ((acc.map Prod.fst)).Nodup →
        bendecodeDLoop P fuel input acc = .ok (v, rem) → wfB P v = true) := by
  intro fuel
  induction fuel with
  | zero =>
    refine ⟨?_, ?_, ?_⟩
    · intro input v rem h
      rw [fromBytesF] at h
      cases h
    · intro input acc v rem _ h
      rw [bendecodeLLoop] at h
      cases h
    · intro input acc v rem _ _ h
      rw [bendecodeDLoop] at h
      cases h
  | succ f ih =>
    obtain ⟨ihA, ihB, ihD⟩ := ih
    refine ⟨?_, ?_, ?_⟩
    · intro input v rem h
      cases input with
      | nil =>
        rw [fromBytesF] at h
        cases h
      | cons b rest =>
        rw [fromBytesF] at h
        split at h
        · split at h
          · rename_i s r heq
            simp only [DR.ok.injEq, Prod.mk.injEq] at h
            obtain ⟨hv, _⟩ := h
            subst hv
            obtain ⟨hu, hl, _⟩ := bendecode_s_ok heq
            rw [wfB]
            simp only [Bool.and_eq_true, decide_eq_true_eq]
            exact ⟨hu, hl⟩
          · cases h
          · cases h
          · cases h
        · split at h
          · obtain ⟨⟨n, hn, h1, h2⟩, _⟩ := bendecode_i_ok h
            subst hn
            rw [wfB]
            simp only [Bool.and_eq_true, decide_eq_true_eq]
            exact ⟨h1, h2⟩
          · split at h
            · exact ihB _ _ _ _ (by intro x hx; simp at hx) h
            · split at h
              · exact ihD _ _ _ _ (by rw [wfD]) (by simp) h
              · split at h
                · cases h
                · cases h
    · intro input acc v rem hacc h
      cases input with
      | nil =>
        rw [bendecodeLLoop] at h
        cases h
      | cons b rest =>
        rw [bendecodeLLoop] at h
        split at h
        · simp only [DR.ok.injEq, Prod.mk.injEq] at h
          obtain ⟨hv, _⟩ := h
          subst hv
          rw [wfB]
          exact wfL_iff.mpr hacc
        · split at h
          · rename_i v' ret heq
            refine ihB _ (acc ++ [v']) _ _ ?_ h
            intro x hx
            rcases List.mem_append.mp hx with hx | hx
            · exact hacc x hx
            · simp only [List.mem_singleton] at hx
              subst hx
              exact ihA _ _ _ heq
          · cases h
          · cases h
          · cases h
    · intro input acc v rem hacc hnd h
      cases input with
      | nil =>
        rw [bendecodeDLoop] at h
        cases h
      | cons b rest =>
        rw [bendecodeDLoop] at h
        split at h
        · simp only [DR.ok.injEq, Prod.mk.injEq] at h
          obtain ⟨hv, _⟩ := h
          subst hv
          rw [wfB]
          simp [hnd, hacc]
        · split at h
          · rename_i s ret heqs
            obtain ⟨hsu, hsl, _⟩ := bendecode_s_ok heqs
            split at h
            · rename_i hPs
              split at h
              · rename_i v' ret2 heqv
                refine ihD _ (insertKV acc s (.bencode v')) _ _ ?_ ?_ h
                · exact wfD_insertKV hacc hsu hsl
                    (wfEntry_bencode hPs (ihA _ _ _ heqv))
                · exact nodup_keys_insertKV hnd
              · cases h
              · cases h
              · cases h
            · rename_i w hPs
              split at h
              · rename_i bz ret2 heqb
                obtain ⟨hw, hcw, hsum, _⟩ := bendecode_bytez_ok heqb
                refine ihD _ (insertKV acc s (.bytes bz)) _ _ ?_ ?_ h
                · exact wfD_insertKV hacc hsu hsl (wfEntry_bytes hPs hw hcw hsum)
                · exact nodup_keys_insertKV hnd
              · cases h
              · cases h
              · cases h
          · cases h
          · cases h
          · cases h

/-! ## Totality of decoding at the wrapper fuel -/

theorem decOutcome_mono {n m : Nat} (h : n ≤ m) {r : DR (Bencode × List Nat)}
    (hd : decOutcome n r) : decOutcome m r := by
  simp only [decOutcome] at hd ⊢
  rcases hd with ⟨v, rem, hr, hlt⟩ | hd
  · exact Or.inl ⟨v, rem, hr, by omega⟩
  · exact Or.inr hd

theorem decode_total_fuel (P : Pred) (hP : ∀ k w, P k = some w → 0 < w) :
    ∀ fuel : Nat,
      (∀ input : List Nat, 2 * input.length + 1 ≤ fuel →
        decOutcome input.length (fromBytesF P fuel input)) ∧
      (∀ (input : List Nat) (acc : List Bencode), 2 * input.length + 2 ≤ fuel →
        decOutcome input.length (bendecodeLLoop P fuel input acc)) ∧
      (∀ (input : List Nat) (acc : List (List Nat × BencodeDictValues)),
        2 * input.length + 2 ≤ fuel →
        decOutcome input.length (bendecodeDLoop P fuel input acc)) := by
  intro fuel
  induction fuel with
  | zero =>
    refine ⟨fun input h => by omega, fun input acc h => by omega,
      fun input acc h => by omega⟩
  | succ f ih =>
    obtain ⟨ihA, ihB, ihD⟩ := ih
    refine ⟨?_, ?_, ?_⟩
    · intro input hfuel
      cases input with
      | nil =>
        rw [fromBytesF]
        simp [decOutcome]
      | cons b rest =>
        rw [fromBytesF]
        split
        · rcases bendecode_s_cases (b :: rest) with ⟨s, rem, heq⟩ | ⟨e, heq⟩ | heq
          · rw [heq]
            have := (bendecode_s_ok heq).2.2
            exact Or.inl ⟨_, _, rfl, this⟩
          · rw [heq]
            exact Or.inr (Or.inl ⟨e, rfl⟩)
          · rw [heq]
            simp [decOutcome]
        · split
          · rcases bendecode_i_cases rest with ⟨v, rem, heq⟩ | ⟨e, heq⟩ | heq
            · rw [heq]
              have := (bendecode_i_ok heq).2
              refine Or.inl ⟨_, _, rfl, ?_⟩
              simp only [List.length_cons]
              omega
            · rw [heq]
              exact Or.inr (Or.inl ⟨e, rfl⟩)
            · rw [heq]
              simp [decOutcome]
          · split
            · refine decOutcome_mono (show rest.length ≤ (b :: rest).length by simp)
                (ihB rest [] ?_)
              simp only [List.length_cons] at hfuel
              omega
            · split
              · refine decOutcome_mono (show rest.length ≤ (b :: rest).length by simp)
                  (ihD rest [] ?_)
                simp only [List.length_cons] at hfuel
                omega
              · split
                · exact Or.inr (Or.inl ⟨_, rfl⟩)
                · exact Or.inr (Or.inl ⟨_, rfl⟩)
    · intro input acc hfuel
      cases input with
      | nil =>
        rw [bendecodeLLoop]
        simp [decOutcome]
      | cons b rest =>
        rw [bendecodeLLoop]
        split
        · refine Or.inl ⟨_, _, rfl, ?_⟩
          simp
        · have hinner := ihA (b :: rest) (by
            simp only [List.length_cons] at hfuel ⊢
            omega)
          rcases hinner with ⟨v, ret, heq, hret⟩ | ⟨e, heq⟩ | heq | heq | heq
          · rw [heq]
            simp only []
            simp only [List.length_cons] at hret
            refine decOutcome_mono
              (show ret.length ≤ (b :: rest).length by simp only [List.length_cons]; omega)
              (ihB ret (acc ++ [v]) ?_)
            simp only [List.length_cons] at hfuel ⊢
            omega
          · rw [heq]
            exact Or.inr (Or.inl ⟨e, rfl⟩)
          · rw [heq]
            simp [decOutcome]
          · rw [heq]
            simp [decOutcome]
          · rw [heq]
            simp [decOutcome]
    · intro input acc hfuel
      cases input with
      | nil =>
        rw [bendecodeDLoop]
        simp [decOutcome]
      | cons b rest =>
        rw [bendecodeDLoop]
        split
        · refine Or.inl ⟨_, _, rfl, ?_⟩
          simp
        · rcases bendecode_s_cases (b :: rest) with ⟨s, ret, heqs⟩ | ⟨e, heqs⟩ | heqs
          · rw [heqs]
            simp only []
            have hret := (bendecode_s_ok heqs).2.2
            simp only [List.length_cons] at hret
            cases hPs : P s with
            | none =>
              simp only []
              have hinner := ihA ret (by
                simp only [List.length_cons] at hfuel
                omega)
              rcases hinner with ⟨v, ret2, heq, hret2⟩ | ⟨e, heq⟩ | heq | heq | heq
              · rw [heq]
                simp only []
                refine decOutcome_mono
                  (show ret2.length ≤ (b :: rest).length by
                    simp only [List.length_cons]; omega)
                  (ihD ret2 (insertKV acc s (.bencode v)) ?_)
                simp only [List.length_cons] at hfuel ⊢
                omega
              · rw [heq]
                exact Or.inr (Or.inl ⟨e, rfl⟩)
              · rw [heq]
                simp [decOutcome]
              · rw [heq]
                simp [decOutcome]
              · rw [heq]
                simp [decOutcome]
            | some w =>
              simp only []
              have hw : 0 < w := hP s w hPs
              rcases bendecode_bytez_cases ret hw with ⟨bz, ret2, heqb⟩ | ⟨e, heqb⟩ | heqb
              · rw [heqb]
                simp only []
                have hret2 := (bendecode_bytez_ok heqb).2.2.2
                refine decOutcome_mono
                  (show ret2.length ≤ (b :: rest).length by
                    simp only [List.length_cons]; omega)
                  (ihD ret2 (insertKV acc s (.bytes bz)) ?_)
                simp only [List.length_cons] at hfuel ⊢
                omega
              · rw [heqb]
                exact Or.inr (Or.inl ⟨e, rfl⟩)
              · rw [heqb]
                simp [decOutcome]
          · rw [heqs]
            exact Or.inr (Or.inl ⟨e, rfl⟩)
          · rw [heqs]
            simp [decOutcome]


/-! ## Helper lemmas for the claim theorems -/

theorem sum_lengths_const {w : Nat} :
    ∀ {l : List (List Nat)}, (∀ c ∈ l, c.length = w) → (l.map List.length).sum = l.length * w := by
  intro l
  induction l with
  | nil => simp
  | cons c t ih =>
    intro h
    simp only [List.map_cons, List.sum_cons, List.length_cons,
      ih (fun d hd => h d (by simp [hd])), h c (by simp)]
    ring

theorem intToDecBytes_ofNat (n : Nat) : intToDecBytes (n : Int) = natToDecBytes n := by
  rw [intToDecBytes, if_neg (by omega)]
  simp

theorem wfD_dictGet {P : Pred} :
    ∀ {d : List (List Nat × BencodeDictValues)} {k : List Nat} {dv : BencodeDictValues},
      wfD P d = true → dictGet k d = some dv → wfEntry P k dv = true := by
  intro d
  induction d with
  | nil => intro k dv _ hg; rw [dictGet] at hg; cases hg
  | cons e t ih =>
    intro k dv hd hg
    obtain ⟨k', v'⟩ := e
    rw [wfD] at hd
    simp only [Bool.and_eq_true] at hd
    rw [dictGet] at hg
    split at hg
    · rename_i hk
      cases hg
      subst hk
      exact hd.1.2
    · exact ih hd.2 hg

theorem parse_pieces_ok {bz : List (List Nat)} (h : ∀ c ∈ bz, c.length = 20) :
    Info.parse_pieces bz = .ok bz := by
  induction bz with
  | nil => rfl
  | cons c t ih =>
    rw [Info.parse_pieces]
    rw [if_neg (by simp [h c (by simp)])]
    rw [ih (fun d hd => h d (by simp [hd]))]
    rw [List.take_of_length_le (by rw [h c (by simp)])]

theorem unwrap_peers_ok {bz : List (List Nat)} (h : ∀ c ∈ bz, c.length = 6) :
    (unwrap_peers bz).isSome = true := by
  induction bz with
  | nil => rfl
  | cons c t ih =>
    rw [unwrap_peers]
    have hc : Peer.try_from c = .ok
        { ip_addr := (c.getD 0 0, c.getD 1 0, c.getD 2 0, c.getD 3 0),
          port := Nat.lor (Nat.shiftLeft (c.getD 4 0) 8) (c.getD 5 0) } := by
      rw [Peer.try_from, if_neg (by simp [h c (by simp)])]
    rw [hc]
    have ht := ih (fun d hd => h d (by simp [hd]))
    cases hup : unwrap_peers t with
    | none => rw [hup] at ht; simp at ht
    | some r => rfl

theorem lor_shift_byte {hi lo : Nat} (h : lo < 256) :
    Nat.lor (Nat.shiftLeft hi 8) lo = hi * 256 + lo := by
  have h1 : Nat.shiftLeft hi 8 = 2 ^ 8 * hi := by
    show hi <<< 8 = 2 ^ 8 * hi
    rw [Nat.shiftLeft_eq]
    ring
  rw [h1]
  show 2 ^ 8 * hi ||| lo = hi * 256 + lo
  rw [← Nat.mul_add_lt_is_or (show lo < 2 ^ 8 by omega) hi]
  ring

/-! ## Claim theorems -/

/-- C1: Bencode round trip. For every well-formed value `V` over the grammar
of section 3 (UTF-8 strings and keys of `usize` length, `i64` numbers,
distinct dictionary keys, and `ByteChunks` exactly at the byte-mode keys of
`P`, every chunk of the prescribed positive width), encoding with
`Bencode::to_bytes` and decoding with `Bencode::from_bytes` under the same
predicate `P` yields exactly `(V, [])`; and every value obtained by decoding
any byte sequence under `P` re-encodes to bytes that decode back to the
same value with empty remainder. -/
theorem claim_C1_bencode_roundtrip :
    (∀ (P : Pred) (V : Bencode), wfB P V = true →
      Bencode.from_bytes (Bencode.to_bytes V) P = .ok (V, [])) ∧
    (∀ (P : Pred) (B : List Nat) (V : Bencode) (rem : List Nat),
      Bencode.from_bytes B P = .ok (V, rem) →
      Bencode.from_bytes (Bencode.to_bytes V) P = .ok (V, [])) := by
  constructor
  · exact fun P V h => from_bytes_to_bytes P V h
  · intro P B V rem h
    rw [Bencode.from_bytes] at h
    exact from_bytes_to_bytes P V ((decode_wf_fuel P (2 * B.length + 1)).1 B V rem h)

/-- Witness for C1 at a concrete dictionary with a byte-mode `pieces`
entry, a nested list, a negative number and a string. -/
theorem claim_C1_witness :
    wfB metainfoPred sampleValue = true ∧
    Bencode.from_bytes (Bencode.to_bytes sampleValue) metainfoPred =
      .ok (sampleValue, []) :=
  ⟨by decide, claim_C1_bencode_roundtrip.1 metainfoPred sampleValue (by decide)⟩

/-- C2: the source's block partitioning evaluated at a concrete torrent
(32769-byte single file in 32768-byte pieces, downloading piece 0, which is
not the last piece): the code requests block 0 with length
1 = 32769 mod 16384 instead of 16384, because the `irregular_blocks`
condition in `download_piece` is inverted; `specBlockRequests` restates the
intended partitioning of the claim, which differs at this input. -/
theorem claim_C2_block_requests_bug :
    block_requests infoTwoPiece 0 = [.Request 0 0 1, .Request 0 16384 16384] ∧
    specBlockRequests infoTwoPiece 0 =
      [.Request 0 0 16384, .Request 0 16384 16384] ∧
    block_requests infoTwoPiece 0 ≠ specBlockRequests infoTwoPiece 0 :=
  ⟨by decide, by decide, by decide⟩

/-- C3: piece reassembly is not permutation invariant. With the three
blocks of piece 0 delivered at offsets (16384, 32768, 0), the heap's
underlying vector after the sift-ups is ordered (0, 32768, 16384);
`BinaryHeap::into_iter` yields that array order, not sorted order, so the
second drained block fails the `begin = i * 16384` check and
`download_piece` returns `DownloadPieceFailed` instead of the claimed
concatenation. Delivered in ascending order the same blocks assemble
correctly. -/
theorem claim_C3_reassembly_bug :
    download_piece infoThreeBlock 0 permutedBlocks = .err .downloadPieceFailed ∧
    download_piece infoThreeBlock 0 permutedBlocks ≠ .ok ([10] ++ [11] ++ [12]) ∧
    download_piece infoThreeBlock 0 orderedBlocks = .ok [10, 11, 12] :=
  ⟨by decide, by decide, by decide⟩

/-- C4: the wire encoding of outgoing messages, evaluated at concrete
messages: `Cancel` is emitted with tag byte 6 (not 8, a copy of the
`Request` arm), and `Piece` is emitted with no tag byte at all while its
big-endian length prefix (9 + block length = 10) counts one, so only 9
payload bytes follow the prefix. -/
theorem claim_C4_message_payload_bug :
    message_payload (.Cancel 1 2 3) =
      [0, 0, 0, 13, 6, 0, 0, 0, 1, 0, 0, 0, 2, 0, 0, 0, 3] ∧
    message_payload (.Piece 1 2 [171]) =
      [0, 0, 0, 10, 0, 0, 0, 1, 0, 0, 0, 2, 171] ∧
    (message_payload (.Piece 1 2 [171])).length = 4 + 9 ∧
    message_payload (.Request 1 2 3) =
      [0, 0, 0, 13, 6, 0, 0, 0, 1, 0, 0, 0, 2, 0, 0, 0, 3] :=
  ⟨by decide, by decide, by decide, by decide⟩

/-- C6: the decode failure taxonomy. `MisplacedClosing` when a value
position starts with `e`; `UnexpectedToken(b)` when it starts with a byte
that is no ASCII digit and none of `i`, `l`, `d`, `e`; `MissingToken(':')`
when a string's colon is absent before the input ends; `MissingToken('e')`
when an integer's terminator is absent; and `UnexpectedTruncation` when a
byte-mode value's declared length is not divisible by the configured
chunk width. -/
theorem claim_C6_failure_taxonomy :
    (∀ (P : Pred) (rest : List Nat),
      Bencode.from_bytes (101 :: rest) P = .err .misplacedClosing) ∧
    (∀ (P : Pred) (b : Nat) (rest : List Nat), isDigitByte b = false →
      b ≠ 105 → b ≠ 108 → b ≠ 100 → b ≠ 101 →
      Bencode.from_bytes (b :: rest) P = .err (.unexpectedToken b)) ∧
    (∀ (P : Pred) (b : Nat) (rest : List Nat), isDigitByte b = true →
      (58 : Nat) ∉ b :: rest →
      Bencode.from_bytes (b :: rest) P = .err (.missingToken 58)) ∧
    (∀ (P : Pred) (rest : List Nat), (101 : Nat) ∉ rest →
      Bencode.from_bytes (105 :: rest) P = .err (.missingToken 101)) ∧
    (∀ (input : List Nat) (w ci len : Nat), posOf 58 input = some ci →
      utf8Valid (input.take ci) = true → parseUsize (input.take ci) = some len →
      w ≠ 0 → len % w ≠ 0 →
      bendecode_bytez input w = .err .unexpectedTruncation) := by
  refine ⟨?_, ?_, ?_, ?_, ?_⟩
  · intro P rest
    rw [Bencode.from_bytes, fromBytesF]
    rw [if_neg (by decide), if_neg (by decide), if_neg (by decide), if_neg (by decide),
      if_pos rfl]
  · intro P b rest hd h105 h108 h100 h101
    rw [Bencode.from_bytes, fromBytesF]
    rw [if_neg (by simp [hd]), if_neg h105, if_neg h108, if_neg h100, if_neg h101]
  · intro P b rest hd hmem
    rw [Bencode.from_bytes, fromBytesF, if_pos hd]
    have hs : bendecode_s (b :: rest) = .err (.missingToken 58) := by
      simp only [bendecode_s, posOf_eq_none_of_not_mem hmem]
    rw [hs]
  · intro P rest hmem
    rw [Bencode.from_bytes, fromBytesF]
    rw [if_neg (by decide), if_pos rfl]
    simp only [bendecode_i, posOf_eq_none_of_not_mem hmem]
  · intro input w ci len hpos hu hparse hw hmod
    simp only [bendecode_bytez, hpos]
    rw [if_pos hu, hparse]
    simp only []
    rw [if_neg hw, if_pos hmod]

/-- Witness for C6 at concrete inputs for each failure kind. -/
theorem claim_C6_witness :
    Bencode.from_bytes [101] metainfoPred = .err .misplacedClosing ∧
    Bencode.from_bytes [120] metainfoPred = .err (.unexpectedToken 120) ∧
    Bencode.from_bytes [49, 50, 97, 98] metainfoPred = .err (.missingToken 58) ∧
    Bencode.from_bytes [105, 52, 50] metainfoPred = .err (.missingToken 101) ∧
    bendecode_bytez [51, 58, 97, 98, 99] 20 = .err .unexpectedTruncation :=
  ⟨claim_C6_failure_taxonomy.1 metainfoPred [],
   claim_C6_failure_taxonomy.2.1 metainfoPred 120 [] (by decide) (by decide) (by decide)
     (by decide) (by decide),
   claim_C6_failure_taxonomy.2.2.1 metainfoPred 49 [50, 97, 98] (by decide) (by decide),
   claim_C6_failure_taxonomy.2.2.2.1 metainfoPred [52, 50] (by decide),
   claim_C6_failure_taxonomy.2.2.2.2 [51, 58, 97, 98, 99] 20 1 3 (by rfl) (by decide)
     (by decide) (by decide) (by decide)⟩

/-- C8: compact peer decoding. `Peer::try_from` succeeds exactly on slices
of length 6; on `[a, b, c, d, hi, lo]` it yields the peer with IPv4
address `a.b.c.d` and port `hi * 256 + lo`; in particular
`[192, 168, 0, 1, 0x1A, 0xE1]` yields `192.168.0.1:6881`; any other
length yields `UnknownBytesListFormat`. -/
theorem claim_C8_compact_peer :
    (∀ v : List Nat, v.length ≠ 6 → Peer.try_from v = .error .unknownBytesListFormat) ∧
    (∀ (v : List Nat) (p : Peer), Peer.try_from v = .ok p → v.length = 6) ∧
    (∀ a b c d hi lo : Nat, lo < 256 →
      Peer.try_from [a, b, c, d, hi, lo] = .ok ⟨(a, b, c, d), hi * 256 + lo⟩) ∧
    Peer.try_from [192, 168, 0, 1, 26, 225] = .ok ⟨(192, 168, 0, 1), 6881⟩ := by
  refine ⟨?_, ?_, ?_, by rfl⟩
  · intro v h
    rw [Peer.try_from, if_pos h]
  · intro v p h
    rw [Peer.try_from] at h
    split at h
    · cases h
    · rename_i h6
      exact not_not.mp h6
  · intro a b c d hi lo hlo
    rw [Peer.try_from, if_neg (by simp)]
    show (Except.ok ⟨(a, b, c, d), Nat.lor (Nat.shiftLeft hi 8) lo⟩ :
        Except PeerError Peer) = Except.ok ⟨(a, b, c, d), hi * 256 + lo⟩
    rw [lor_shift_byte hlo]

/-- Witness for C8 with concrete hypotheses discharged. -/
theorem claim_C8_witness :
    Peer.try_from [1, 2, 3] = .error .unknownBytesListFormat ∧
    Peer.try_from [10, 0, 0, 1, 26, 225] = .ok ⟨(10, 0, 0, 1), 26 * 256 + 225⟩ ∧
    [192, 168, 0, 1, 26, 225].length = 6 :=
  ⟨claim_C8_compact_peer.1 [1, 2, 3] (by decide),
   claim_C8_compact_peer.2.2.1 10 0 0 1 26 225 (by decide),
   claim_C8_compact_peer.2.1 [192, 168, 0, 1, 26, 225] ⟨(192, 168, 0, 1), 6881⟩ (by rfl)⟩

/-- C10 counterexample: decoding the empty slice panics (index out of
bounds on `encoded_value[0]`) instead of returning a value or an error. -/
theorem claim_C10_counterexample :
    Bencode.from_bytes [] metainfoPred = .panic .indexOutOfBounds := rfl

/-- C10 amended: for every input and every byte-mode predicate assigning
positive chunk widths, `Bencode::from_bytes` returns a decoded value with
the remaining bytes or an error, except that it can panic in exactly three
ways: indexing an empty value position, slicing a declared string or
byte-string length past the end of the input (also the `&rem[1..]` of an
unterminated list or dictionary), and `parse::<i64>().unwrap()` on an
integer token that does not parse. -/
theorem claim_C10_total (P : Pred) (hP : ∀ k w, P k = some w → 0 < w)
    (input : List Nat) :
    (∃ v rem, Bencode.from_bytes input P = .ok (v, rem)) ∨
    (∃ e, Bencode.from_bytes input P = .err e) ∨
    Bencode.from_bytes input P = .panic .indexOutOfBounds ∨
    Bencode.from_bytes input P = .panic .sliceOutOfBounds ∨
    Bencode.from_bytes input P = .panic .intParseUnwrap := by
  have h := (decode_total_fuel P hP (2 * input.length + 1)).1 input (by omega)
  rw [Bencode.from_bytes]
  simp only [decOutcome] at h
  rcases h with ⟨v, rem, hr, _⟩ | h
  · exact Or.inl ⟨v, rem, hr⟩
  · exact Or.inr h

/-- Witness for C10 at a concrete input and predicate. -/
theorem claim_C10_witness :
    (∃ v rem, Bencode.from_bytes [105, 45, 52, 50, 101] metainfoPred = .ok (v, rem)) ∨
    (∃ e, Bencode.from_bytes [105, 45, 52, 50, 101] metainfoPred = .err e) ∨
    Bencode.from_bytes [105, 45, 52, 50, 101] metainfoPred = .panic .indexOutOfBounds ∨
    Bencode.from_bytes [105, 45, 52, 50, 101] metainfoPred = .panic .sliceOutOfBounds ∨
    Bencode.from_bytes [105, 45, 52, 50, 101] metainfoPred = .panic .intParseUnwrap :=
  claim_C10_total metainfoPred
    (fun k w h => by
      simp only [metainfoPred] at h
      split at h
      · simp at h
        omega
      · cases h)
    [105, 45, 52, 50, 101]

/-- C9: the chunk-width invariant. Whenever byte-mode decoding with chunk
width `w` succeeds, every returned chunk has length exactly `w`; hence in
metainfo projection the `pieces` chunks all pass the length-20 check of
`Info::parse_info`, and in tracker-response parsing every `peers` chunk
converts to a `Peer` without the `.unwrap()` panicking. -/
theorem claim_C9_chunk_widths :
    (∀ (input : List Nat) (w : Nat) (bz : List (List Nat)) (rem : List Nat),
      bendecode_bytez input w = .ok (bz, rem) → ∀ c ∈ bz, c.length = w) ∧
    (∀ (input : List Nat) (root : List (List Nat × BencodeDictValues))
      (rem : List Nat) (it : List (List Nat × BencodeDictValues))
      (bz : List (List Nat)),
      Bencode.from_bytes input metainfoPred = .ok (.dict root, rem) →
      dictGet (asciiBytes "info") root = some (.bencode (.dict it)) →
      dictGet (asciiBytes "pieces") it = some (.bytes bz) →
      Info.parse_pieces bz = .ok bz) ∧
    (∀ (input : List Nat) (root : List (List Nat × BencodeDictValues))
      (rem : List Nat) (bz : List (List Nat)),
      Bencode.from_bytes input trackerPred = .ok (.dict root, rem) →
      dictGet (asciiBytes "peers") root = some (.bytes bz) →
      (unwrap_peers bz).isSome = true) := by
  refine ⟨?_, ?_, ?_⟩
  · intro input w bz rem h
    exact (bendecode_bytez_ok h).2.1
  · intro input root rem it bz h hinfo hpieces
    rw [Bencode.from_bytes] at h
    have hwf := (decode_wf_fuel metainfoPred (2 * input.length + 1)).1 _ _ _ h
    rw [wfB] at hwf
    simp only [Bool.and_eq_true, decide_eq_true_eq] at hwf
    have he1 := wfD_dictGet hwf.2 hinfo
    rw [wfEntry] at he1
    simp only [Bool.and_eq_true, Option.isNone_iff_eq_none] at he1
    have hwfit := he1.2
    rw [wfB] at hwfit
    simp only [Bool.and_eq_true, decide_eq_true_eq] at hwfit
    have he2 := wfD_dictGet hwfit.2 hpieces
    rw [wfEntry] at he2
    rw [show metainfoPred (asciiBytes "pieces") = some 20 from by decide] at he2
    simp only [Bool.and_eq_true, decide_eq_true_eq, List.all_eq_true] at he2
    refine parse_pieces_ok (fun c hc => ?_)
    have := he2.1.2 c hc
    simpa using this
  · intro input root rem bz h hpeers
    rw [Bencode.from_bytes] at h
    have hwf := (decode_wf_fuel trackerPred (2 * input.length + 1)).1 _ _ _ h
    rw [wfB] at hwf
    simp only [Bool.and_eq_true, decide_eq_true_eq] at hwf
    have he := wfD_dictGet hwf.2 hpeers
    rw [wfEntry] at he
    rw [show trackerPred (asciiBytes "peers") = some 6 from by decide] at he
    simp only [Bool.and_eq_true, decide_eq_true_eq, List.all_eq_true] at he
    refine unwrap_peers_ok (fun c hc => ?_)
    have := he.1.2 c hc
    simpa using this

/-- Witness for C9 at concrete decodes of a metainfo-style dictionary and
a tracker-style dictionary. -/
theorem claim_C9_witness :
    (∀ c ∈ [[97, 98], [99, 100]], List.length c = 2) ∧
    Info.parse_pieces [List.replicate 20 1] = .ok [List.replicate 20 1] ∧
    (unwrap_peers [[1, 2, 3, 4, 26, 225]]).isSome = true :=
  ⟨claim_C9_chunk_widths.1 [52, 58, 97, 98, 99, 100] 2 [[97, 98], [99, 100]] [] (by rfl),
   claim_C9_chunk_widths.2.1
     (asciiBytes "d4:infod6:pieces20:" ++ List.replicate 20 1 ++ asciiBytes "ee")
     [(asciiBytes "info", .bencode (.dict [(asciiBytes "pieces",
        .bytes [List.replicate 20 1])]))]
     [] [(asciiBytes "pieces", .bytes [List.replicate 20 1])] [List.replicate 20 1]
     (by rfl) (by rfl) (by rfl),
   claim_C9_chunk_widths.2.2 (asciiBytes "d5:peers6:" ++ [1, 2, 3, 4, 26, 225] ++ [101])
     [(asciiBytes "peers", .bytes [[1, 2, 3, 4, 26, 225]])] [] [[1, 2, 3, 4, 26, 225]]
     (by rfl) (by rfl)⟩

/-- C7: the handshake frame. For every 20-byte info-hash the written buffer
is exactly `0x13`, the 19 ASCII bytes of "BitTorrent protocol", 8 zero
bytes, the info-hash, and the literal 20-byte local peer id, 68 bytes in
total; and from a 68-byte reply the returned remote peer id is the last 20
bytes. -/
theorem claim_C7_handshake :
    (∀ info_hash : List Nat, info_hash.length = 20 →
      handshake_msg info_hash =
        19 :: (asciiBytes "BitTorrent protocol" ++
          (List.replicate 8 0 ++ (info_hash ++ PEER_ID))) ∧
      (handshake_msg info_hash).length = 68) ∧
    (∀ response : List Nat, response.length = 68 →
      handshake_peer_id response = response.drop 48 ∧
        (handshake_peer_id response).length = 20) := by
  constructor
  · intro H hH
    have key : handshake_msg H =
        19 :: (asciiBytes "BitTorrent protocol" ++
          (List.replicate 8 0 ++ (H ++ PEER_ID))) := by
      rw [handshake_msg]
      have hbase : setRange ((List.replicate 68 0).set 0 19) 1
          (asciiBytes "BitTorrent protocol") =
          (19 :: asciiBytes "BitTorrent protocol" ++ List.replicate 8 0) ++
            List.replicate 40 0 := by decide
      have hmid : setRange ((19 :: asciiBytes "BitTorrent protocol" ++
          List.replicate 8 0) ++ List.replicate 40 0) 28 H =
          (19 :: asciiBytes "BitTorrent protocol" ++ List.replicate 8 0) ++
            (H ++ List.replicate 20 0) := by
        rw [setRange, hH]
        rw [List.take_left' (by decide)]
        have hdrop40 : ((19 :: asciiBytes "BitTorrent protocol" ++ List.replicate 8 0) ++
            List.replicate 40 0).drop (28 + 20) = List.replicate 20 0 := by decide
        rw [hdrop40, List.append_assoc]
      rw [hbase, hmid, setRange]
      have hpidlen : PEER_ID.length = 20 := by decide
      rw [hpidlen]
      have htake : ((19 :: asciiBytes "BitTorrent protocol" ++ List.replicate 8 0) ++
          (H ++ List.replicate 20 0)).take 48 =
          (19 :: asciiBytes "BitTorrent protocol" ++ List.replicate 8 0) ++ H := by
        rw [List.take_append_eq_append_take]
        rw [List.take_of_length_le (by decide)]
        have h2820 : 48 - (19 :: asciiBytes "BitTorrent protocol" ++
            List.replicate 8 0).length = 20 := by decide
        rw [h2820]
        rw [List.take_append_eq_append_take, List.take_of_length_le (by omega)]
        have h20H : 20 - H.length = 0 := by omega
        rw [h20H]
        simp
      have hdrop : ((19 :: asciiBytes "BitTorrent protocol" ++ List.replicate 8 0) ++
          (H ++ List.replicate 20 0)).drop (48 + 20) = [] := by
        apply List.drop_eq_nil_of_le
        simp only [List.length_append, List.length_cons, List.length_replicate, hH]
        decide
      rw [htake, hdrop]
      simp
    refine ⟨key, ?_⟩
    rw [key]
    simp only [List.length_cons, List.length_append, List.length_replicate, hH]
    decide
  · intro response hresp
    refine ⟨rfl, ?_⟩
    rw [handshake_peer_id, List.length_drop, hresp]

/-- Witness for C7 at a concrete info-hash and reply. -/
theorem claim_C7_witness :
    handshake_msg (List.replicate 20 7) =
      19 :: (asciiBytes "BitTorrent protocol" ++
        (List.replicate 8 0 ++ (List.replicate 20 7 ++ PEER_ID))) ∧
    handshake_peer_id (List.replicate 68 9) = (List.replicate 68 9).drop 48 :=
  ⟨(claim_C7_handshake.1 (List.replicate 20 7) (by decide)).1,
   (claim_C7_handshake.2 (List.replicate 68 9) (by decide)).1⟩

/-- C5 counterexample: for a multi-file info dictionary, `Info::to_bytes`
does not emit the claimed well-formed dictionary: no `files` key appears,
the file entries are not wrapped in dictionaries, and the `4:path` key is
repeated per path segment instead of a path list. -/
theorem claim_C5_counterexample :
    Info.to_bytes infoMulti ≠ specInfoBytes infoMulti ∧
    Info.to_bytes infoMulti =
      asciiBytes "dl6:lengthi1e4:path1:ae4:name1:n12:piece lengthi1e6:pieces20:" ++
        List.replicate 20 0 ++ [101] :=
  ⟨by decide, by decide⟩

/-- C5 amended: for every single-file info dictionary (with 20-byte piece
hashes), `Info::to_bytes` emits exactly the well-formed Bencode dictionary
with keys in the literal order `length`, `name`, `piece length`, `pieces`,
and the info-hash is the SHA-1 primitive applied to this encoding. (In the
multi-file case the emitted bytes diverge, as the counterexample shows.) -/
theorem claim_C5_canonical_single (info : Info) (L : Nat)
    (hf : info.file_type = .singleFile L)
    (hp : ∀ c ∈ info.pieces, c.length = 20) :
    Info.to_bytes info = specInfoBytes info ∧
    ∀ sha1 : List Nat → List Nat, Info.get_hash sha1 info = sha1 (specInfoBytes info) := by
  have key : Info.to_bytes info = specInfoBytes info := by
    obtain ⟨ft, nm, plen, pieces⟩ := info
    change ft = FileType.singleFile L at hf
    subst hf
    have hp' : ∀ c ∈ pieces, c.length = 20 := hp
    have ek1 : natToDecBytes (asciiBytes "length").length ++ 58 :: asciiBytes "length" =
        asciiBytes "6:length" := by decide
    have ek2 : natToDecBytes (asciiBytes "name").length ++ 58 :: asciiBytes "name" =
        asciiBytes "4:name" := by decide
    have ek3 : natToDecBytes (asciiBytes "piece length").length ++ 58 ::
        asciiBytes "piece length" = asciiBytes "12:piece length" := by decide
    have ek4 : natToDecBytes (asciiBytes "pieces").length ++ 58 :: asciiBytes "pieces" =
        asciiBytes "6:pieces" := by decide
    simp only [Info.to_bytes, specInfoBytes, specInfoDict, FileType.to_bytes,
      Bencode.to_bytes, toBytesDict, List.singleton_append, List.cons_append]
    rw [ek1, ek2, ek3, ek4]
    rw [intToDecBytes_ofNat, intToDecBytes_ofNat]
    rw [sum_lengths_const hp']
    simp [List.append_assoc]
  exact ⟨key, fun sha1 => by rw [Info.get_hash, key]⟩

/-- Witness for C5 at a concrete single-file info dictionary. -/
theorem claim_C5_witness :
    Info.to_bytes
      { file_type := .singleFile 10000, name := [97, 46, 98], piece_length := 16384,
        pieces := [List.replicate 20 3] } =
    specInfoBytes
      { file_type := .singleFile 10000, name := [97, 46, 98], piece_length := 16384,
        pieces := [List.replicate 20 3] } :=
  (claim_C5_canonical_single _ 10000 rfl (by decide)).1
